import Mathlib

/-!
# Verification of the lane-assignment and row-geometry algorithms of git_plus

This file gives a shallow embedding of `src/webview/graph/graphRenderer.ts`:
`calculateLanes`, `calculateRowGraphData` and `areCommitsConsecutive`, together
with proofs of the behavioural properties stated in the design document.

JavaScript `Map<string, number>` values are modelled as insertion-ordered
association lists (`JMap`); `Set<number>` values used for per-row passthrough
lanes are modelled as duplicate-free insertion-ordered lists.  TypeScript
`number` lane indices are modelled by `Nat`: every lane the code produces is a
non-negative integer (counter increments, lowest-free searches and `max`).
-/

set_option maxHeartbeats 1000000

namespace GitPlus

/-- The commit record (`GitCommit` in `gitOperations.ts` / the webview types):
`hash`, `shortHash`, `message`, `date`, `author`, `parents`, `refs`.  Only
`hash` and `parents` are consulted by the graph algorithms. -/
structure GitCommit where
  hash : String
  shortHash : String := ""
  message : String := ""
  date : String := ""
  author : String := ""
  parents : List String
  refs : List String := []
deriving Repr, DecidableEq, Inhabited

/-- Model of a JavaScript `Map<string, number>`: an insertion-ordered
association list. -/
abbrev JMap := List (String × Nat)

namespace JMap

/-- `m.get(k)` (as an option). -/
def lookup (m : JMap) (k : String) : Option Nat :=
  match m with
  | [] => none
  | (k', v) :: rest => if k' = k then some v else lookup rest k

/-- `m.has(k)`. -/
def has (m : JMap) (k : String) : Bool :=
  (m.lookup k).isSome

/-- `m.get(k)!` — the non-null-asserted read, only ever used under `has`. -/
def getD (m : JMap) (k : String) : Nat :=
  (m.lookup k).getD 0

/-- `m.set(k, v)`: JavaScript `Map.set` replaces the value in place when the
key is present and appends otherwise. -/
def set (m : JMap) (k : String) (v : Nat) : JMap :=
  match m with
  | [] => [(k, v)]
  | (k', v') :: rest => if k' = k then (k, v) :: rest else (k', v') :: set rest k v

/-- `m.delete(k)`: removes the entry for `k` when present. -/
def delete (m : JMap) (k : String) : JMap :=
  match m with
  | [] => []
  | (k', v') :: rest => if k' = k then rest else (k', v') :: delete rest k

/-- `m.values()` in iteration order. -/
def values (m : JMap) : List Nat :=
  m.map Prod.snd

/-- `m.keys()` in iteration order. -/
def keys (m : JMap) : List String :=
  m.map Prod.fst

end JMap

/-- The `while (usedLanes.has(newLane)) { newLane++; }` search, fuelled; the
fuel `used.length + 1` always suffices (pigeonhole). -/
def lowestFreeAux (used : List Nat) : Nat → Nat → Nat
  | 0, n => n
  | fuel + 1, n => if used.contains n then lowestFreeAux used fuel (n + 1) else n

/-- Lowest lane index not present in `used` (the body of steps 4's additional-
parent allocation in `calculateLanes`). -/
def lowestFree (used : List Nat) : Nat :=
  lowestFreeAux used (used.length + 1) 0

/-- State of the single forward pass of `calculateLanes`. -/
structure LaneState where
  commitLanes : JMap
  reservedLanes : JMap
  nextLane : Nat
deriving Repr, DecidableEq

/-- The lane taken by `commit` in the current state: its reserved lane when
one exists, otherwise the fresh `nextLane`. -/
def assignedLaneOf (st : LaneState) (c : GitCommit) : Nat :=
  if st.reservedLanes.has c.hash then st.reservedLanes.getD c.hash else st.nextLane

/-- Reservation step for one additional (merge) parent: if unreserved, give it
the lowest lane absent from the active reservation values and raise
`nextLane` above it. -/
def reserveExtraParent (acc : JMap × Nat) (parent : String) : JMap × Nat :=
  if acc.1.has parent then acc
  else
    let newLane := lowestFree acc.1.values
    (acc.1.set parent newLane, max acc.2 (newLane + 1))

/-- One iteration of the `for (const commit of commits)` loop of
`calculateLanes`. -/
def laneStep (st : LaneState) (c : GitCommit) : LaneState :=
  let assignedLane := assignedLaneOf st c
  let reserved1 := if st.reservedLanes.has c.hash then st.reservedLanes.delete c.hash else st.reservedLanes
  let next1 := if st.reservedLanes.has c.hash then st.nextLane else st.nextLane + 1
  let commitLanes1 := st.commitLanes.set c.hash assignedLane
  match c.parents with
  | [] => ⟨commitLanes1, reserved1, next1⟩
  | firstParent :: restParents =>
    let reserved2 := if reserved1.has firstParent then reserved1 else reserved1.set firstParent assignedLane
    let (reserved3, next3) := restParents.foldl reserveExtraParent (reserved2, next1)
    ⟨commitLanes1, reserved3, next3⟩

/-- Initial state of the pass. -/
def laneInit : LaneState := ⟨[], [], 0⟩

/-- `calculateLanes` (graphRenderer.ts): greedy single forward pass assigning
each commit a lane, reserving lanes for parents. -/
def calculateLanes (commits : List GitCommit) : JMap :=
  (commits.foldl laneStep laneInit).commitLanes

/-- Per-row drawing data (`RowGraphData` in graphRenderer.ts). -/
structure RowGraphData where
  passthroughLanes : List Nat
  hasIncoming : Bool
  hasOutgoing : Bool
  mergeIncomingFromLanes : List Nat
  mergeOutgoingToLanes : List Nat
deriving Repr, DecidableEq

instance : Inhabited RowGraphData := ⟨⟨[], false, false, [], []⟩⟩

/-- Apply `f` to the element at index `i` (the model of `rows[i].field = …`). -/
def updateAt {α : Type} : List α → Nat → (α → α) → List α
  | [], _, _ => []
  | a :: as, 0, f => f a :: as
  | a :: as, n + 1, f => a :: updateAt as n f

/-- JavaScript `Set.add` on an insertion-ordered duplicate-free list. -/
def listInsert (s : List Nat) (x : Nat) : List Nat :=
  if s.contains x then s else s ++ [x]

/-- `commitIndex`: hash → row index, built by `forEach`/`set` (later rows
overwrite earlier ones on a duplicate hash, as `Map.set` does). -/
def commitIndexOf (commits : List GitCommit) : JMap :=
  commits.enum.foldl (fun m ic => m.set ic.2.hash ic.1) []

/-- `childMap`: commit hash → row indices of the commits listing it as a
parent, in traversal order. -/
def childAdd (m : List (String × List Nat)) (k : String) (i : Nat) : List (String × List Nat) :=
  match m with
  | [] => [(k, [i])]
  | (k', v) :: rest => if k' = k then (k', v ++ [i]) :: rest else (k', v) :: childAdd rest k i

/-- Build the reverse adjacency `childMap` of `calculateRowGraphData`. -/
def childMapOf (commits : List GitCommit) : List (String × List Nat) :=
  commits.enum.foldl (fun m ic => ic.2.parents.foldl (fun m' p => childAdd m' p ic.1) m) []

/-- Look up a child list in the reverse adjacency (`childMap.get(h) ?? []`). -/
def childLookup (m : List (String × List Nat)) (k : String) : List Nat :=
  match m with
  | [] => []
  | (k', v) :: rest => if k' = k then v else childLookup rest k

/-- Mutable state of the main loop of `calculateRowGraphData`: the row array
and the per-row passthrough sets. -/
structure RowState where
  rows : List RowGraphData
  pts : List (List Nat)
deriving Repr, DecidableEq

/-- `passthroughSets[r].add(parentLane)` for every `r` with `lo ≤ r < hi`
(the `for (let r = i + 1; r < j; r++)` loop). -/
def addRange (pts : List (List Nat)) (lo hi lane : Nat) : List (List Nat) :=
  (List.range' lo (hi - lo)).foldl (fun acc r => updateAt acc r (fun s => listInsert s lane)) pts

/-- Body of the `for (const parent of commit.parents)` loop at row `i`. -/
def processParent (commitIndex : JMap) (laneMap : JMap) (i lane : Nat)
    (st : RowState) (p : String) : RowState :=
  match commitIndex.lookup p with
  | none => st
  | some j =>
    if j ≤ i then st
    else
      let rows1 := updateAt st.rows i (fun r => { r with hasOutgoing := true })
      let parentLane := laneMap.getD p
      let pts1 := addRange st.pts (i + 1) j parentLane
      if parentLane ≠ lane then
        let rows2 := updateAt rows1 i
          (fun r => { r with mergeOutgoingToLanes := r.mergeOutgoingToLanes ++ [parentLane] })
        let rows3 := updateAt rows2 j
          (fun r => { r with mergeIncomingFromLanes := r.mergeIncomingFromLanes ++ [lane] })
        ⟨rows3, pts1⟩
      else ⟨rows1, pts1⟩

/-- One iteration of the main `for (let i = 0; i < n; i++)` loop: set
`hasIncoming` for row `i`, then process each parent edge. -/
def rowStep (commitIndex : JMap) (laneMap : JMap) (childMap : List (String × List Nat))
    (st : RowState) (ic : Nat × GitCommit) : RowState :=
  let i := ic.1
  let commit := ic.2
  let lane := laneMap.getD commit.hash
  let incoming := (childLookup childMap commit.hash).any (fun j => decide (j < i))
  let st1 : RowState := ⟨updateAt st.rows i (fun r => { r with hasIncoming := incoming }), st.pts⟩
  commit.parents.foldl (processParent commitIndex laneMap i lane) st1

/-- Finalisation: `passthroughLanes[r] = Array.from(passthroughSets[r])`
filtered to exclude row `r`'s own commit lane. -/
def finaliseRows (laneMap : JMap) (commits : List GitCommit) (st : RowState) : List RowGraphData :=
  (commits.zip (st.rows.zip st.pts)).map (fun cp =>
    { cp.2.1 with passthroughLanes := cp.2.2.filter (fun l => l ≠ laneMap.getD cp.1.hash) })

/-- `calculateRowGraphData` (graphRenderer.ts): precompute all per-row
rendering data in a single pass. -/
def calculateRowGraphData (commits : List GitCommit) (commitLanes : JMap) : List RowGraphData :=
  if commits.length = 0 then []
  else
    let commitIndex := commitIndexOf commits
    let childMap := childMapOf commits
    let init : RowState := ⟨commits.map (fun _ => default), commits.map (fun _ => [])⟩
    let final := commits.enum.foldl (rowStep commitIndex commitLanes childMap) init
    finaliseRows commitLanes commits final

/-- Check of one adjacent pair of the selection: the newer commit must have
exactly one parent, and that parent must be the older commit. -/
def consecutivePair (commits : List GitCommit) (a b : Nat) : Bool :=
  let newer := commits.getD a default
  let older := commits.getD b default
  newer.parents.length == 1 && newer.parents.contains older.hash

/-- `areCommitsConsecutive` (graphRenderer.ts): every adjacent pair of the
row-sorted selection must be in a direct single-parent relationship. -/
def areCommitsConsecutive (commits : List GitCommit) (sortedIndices : List Nat) : Bool :=
  (sortedIndices.zip sortedIndices.tail).all (fun ab => consecutivePair commits ab.1 ab.2)

/-- The concrete four-commit scenario of the design document §8. -/
def scenarioCommits : List GitCommit :=
  [ { hash := "c3", parents := ["c2"] },
    { hash := "c2", parents := ["c1", "b1"] },
    { hash := "c1", parents := [] },
    { hash := "b1", parents := ["c1"] } ]

/-- The commit at row `r` (out-of-range rows give the default commit, which
has no parents and therefore no edges). -/
def cAt (commits : List GitCommit) (r : Nat) : GitCommit :=
  commits.getD r default

/-- The row data computed for row `r`. -/
def rowAt (commits : List GitCommit) (laneMap : JMap) (r : Nat) : RowGraphData :=
  (calculateRowGraphData commits laneMap).getD r default

/-- A forward parent edge recognised by `calculateRowGraphData`: row `i`'s
commit lists `p` among its parents, `p` is a known hash sitting at row `j`,
and `j` is strictly below `i`. -/
def FwdEdge (commits : List GitCommit) (i : Nat) (p : String) (j : Nat) : Prop :=
  p ∈ (cAt commits i).parents ∧ (commitIndexOf commits).lookup p = some j ∧ i < j

/-- Validity of a commit list: every referenced parent hash either appears at
a strictly later row or does not appear at all (§4.1's input constraint). -/
def validTopo (commits : List GitCommit) : Prop :=
  ∀ i, i < commits.length → ∀ p ∈ (cAt commits i).parents,
    ∀ k, k < commits.length → (cAt commits k).hash = p → i < k

instance (commits : List GitCommit) : Decidable (validTopo commits) := by
  unfold validTopo
  infer_instance

/-! ## Association-list lemmas -/

namespace JMap

theorem has_eq_false (m : JMap) (k : String) : m.has k = false ↔ m.lookup k = none := by
  cases h : m.lookup k <;> simp [has, h]

theorem lookup_set (m : JMap) (k k' : String) (v : Nat) :
    (m.set k v).lookup k' = if k = k' then some v else m.lookup k' := by
  induction m with
  | nil => simp only [set, lookup]
  | cons hd tl ih =>
    obtain ⟨k0, v0⟩ := hd
    by_cases h0 : k0 = k
    · subst h0
      by_cases h1 : k0 = k'
      · subst h1
        simp [set, lookup]
      · simp [set, lookup, h1]
    · by_cases h1 : k0 = k'
      · subst h1
        have h2 : ¬ k = k0 := fun h => h0 h.symm
        simp [set, lookup, h0, h2]
      · simp [set, lookup, h0, h1, ih]

theorem lookup_delete_ne (m : JMap) (k k' : String) (h : k ≠ k') :
    (m.delete k).lookup k' = m.lookup k' := by
  induction m with
  | nil => simp only [delete]
  | cons hd tl ih =>
    obtain ⟨k0, v0⟩ := hd
    by_cases h0 : k0 = k
    · subst h0
      simp [delete, lookup, h]
    · simp [delete, lookup, h0, ih]

theorem delete_sublist (m : JMap) (k : String) : (m.delete k).Sublist m := by
  induction m with
  | nil => simp [delete]
  | cons hd tl ih =>
    obtain ⟨k0, v0⟩ := hd
    by_cases h0 : k0 = k
    · simp only [delete, if_pos h0]
      exact List.sublist_cons_self _ _
    · simp only [delete, if_neg h0]
      exact ih.cons₂ _

theorem delete_of_lookup_none (m : JMap) (k : String) (h : m.lookup k = none) :
    m.delete k = m := by
  induction m with
  | nil => simp [delete]
  | cons hd tl ih =>
    obtain ⟨k0, v0⟩ := hd
    by_cases h0 : k0 = k
    · rw [lookup, if_pos h0] at h
      exact absurd h (by simp)
    · rw [lookup, if_neg h0] at h
      simp only [delete, if_neg h0, ih h]

theorem set_of_lookup_none (m : JMap) (k : String) (v : Nat) (h : m.lookup k = none) :
    m.set k v = m ++ [(k, v)] := by
  induction m with
  | nil => simp [set]
  | cons hd tl ih =>
    obtain ⟨k0, v0⟩ := hd
    by_cases h0 : k0 = k
    · rw [lookup, if_pos h0] at h
      exact absurd h (by simp)
    · rw [lookup, if_neg h0] at h
      simp only [set, if_neg h0, ih h, List.cons_append]

theorem values_append (m m' : JMap) : (m ++ m').values = m.values ++ m'.values := by
  simp [values]

theorem keys_append (m m' : JMap) : (m ++ m').keys = m.keys ++ m'.keys := by
  simp [keys]

theorem lookup_isSome_iff_keys (m : JMap) (k : String) :
    (m.lookup k).isSome = true ↔ k ∈ m.keys := by
  induction m with
  | nil => simp [lookup, keys]
  | cons hd tl ih =>
    obtain ⟨k0, v0⟩ := hd
    by_cases h0 : k0 = k
    · subst h0
      simp [lookup, keys]
    · simp only [lookup, if_neg h0, keys, List.map_cons, List.mem_cons, ih]
      constructor
      · intro hh
        exact Or.inr hh
      · rintro (hh | hh)
        · exact absurd hh.symm h0
        · exact hh

theorem lookup_eq_none_of_not_mem_keys (m : JMap) (k : String) (h : k ∉ m.keys) :
    m.lookup k = none := by
  have h2 := (lookup_isSome_iff_keys m k).not.mpr h
  cases hl : m.lookup k with
  | none => rfl
  | some v => rw [hl] at h2; simp at h2

theorem mem_values_of_lookup (m : JMap) (k : String) (v : Nat)
    (h : m.lookup k = some v) : v ∈ m.values := by
  induction m with
  | nil => simp [lookup] at h
  | cons hd tl ih =>
    obtain ⟨k0, v0⟩ := hd
    by_cases h0 : k0 = k
    · rw [lookup, if_pos h0, Option.some_inj] at h
      simp [values, h]
    · rw [lookup, if_neg h0] at h
      simp only [values, List.map_cons, List.mem_cons]
      exact Or.inr (ih h)

theorem mem_values_delete_or (m : JMap) (k : String) (x : Nat)
    (h : x ∈ m.values) : x ∈ (m.delete k).values ∨ m.lookup k = some x := by
  induction m with
  | nil => simp [values] at h
  | cons hd tl ih =>
    obtain ⟨k0, v0⟩ := hd
    simp only [values, List.map_cons, List.mem_cons] at h
    by_cases h0 : k0 = k
    · rcases h with h | h
      · right
        rw [lookup, if_pos h0, h]
      · left
        rw [delete, if_pos h0]
        exact h
    · rcases h with h | h
      · left
        rw [delete, if_neg h0]
        simp only [values, List.map_cons, List.mem_cons]
        exact Or.inl h
      · rcases ih h with h' | h'
        · left
          rw [delete, if_neg h0]
          simp only [values, List.map_cons, List.mem_cons]
          exact Or.inr h'
        · right
          rw [lookup, if_neg h0]
          exact h'

theorem lookup_ne_of_nodup (m : JMap) (k k' : String) (v v' : Nat)
    (hkeys : m.keys.Nodup) (hvals : m.values.Nodup)
    (hk : m.lookup k = some v) (hk' : m.lookup k' = some v') (hne : k ≠ k') :
    v ≠ v' := by
  induction m with
  | nil => simp [lookup] at hk
  | cons hd tl ih =>
    obtain ⟨k0, v0⟩ := hd
    simp only [keys, List.map_cons, List.nodup_cons] at hkeys
    simp only [values, List.map_cons, List.nodup_cons] at hvals
    by_cases h0 : k0 = k
    · rw [lookup, if_pos h0, Option.some_inj] at hk
      rw [lookup, if_neg (h0 ▸ hne)] at hk'
      subst hk
      intro hvv
      exact hvals.1 (hvv ▸ mem_values_of_lookup tl k' v' hk')
    · by_cases h1 : k0 = k'
      · rw [lookup, if_neg h0] at hk
        rw [lookup, if_pos h1, Option.some_inj] at hk'
        subst hk'
        intro hvv
        exact hvals.1 (hvv ▸ mem_values_of_lookup tl k v hk)
      · rw [lookup, if_neg h0] at hk
        rw [lookup, if_neg h1] at hk'
        exact ih hkeys.2 hvals.2 hk hk'

end JMap


/-! ## Properties of the lowest-free-lane search -/

theorem exists_not_mem_le_length (used : List Nat) : ∃ m, m ≤ used.length ∧ m ∉ used := by
  by_contra hcon
  push_neg at hcon
  have hsub : Finset.range (used.length + 1) ⊆ used.toFinset := by
    intro m hm
    rw [Finset.mem_range] at hm
    rw [List.mem_toFinset]
    exact hcon m (Nat.lt_succ_iff.mp hm)
  have hcard := Finset.card_le_card hsub
  rw [Finset.card_range] at hcard
  have := used.toFinset_card_le
  omega

theorem lowestFreeAux_spec (used : List Nat) :
    ∀ (fuel n : Nat), (∃ m, n ≤ m ∧ m < n + fuel ∧ m ∉ used) →
      lowestFreeAux used fuel n ∉ used ∧ n ≤ lowestFreeAux used fuel n ∧
        ∀ k, n ≤ k → k < lowestFreeAux used fuel n → k ∈ used := by
  intro fuel
  induction fuel with
  | zero =>
    intro n ⟨m, h1, h2, _⟩
    omega
  | succ fuel ih =>
    intro n ⟨m, h1, h2, h3⟩
    by_cases hn : used.contains n
    · have hnn : n ∈ used := by simpa using hn
      have hrec := ih (n + 1) ⟨m, by
        rcases Nat.eq_or_lt_of_le h1 with he | hl
        · exact absurd (he ▸ hnn) h3
        · exact hl, by omega, h3⟩
      rw [lowestFreeAux, if_pos hn]
      refine ⟨hrec.1, by omega, fun k hk1 hk2 => ?_⟩
      rcases Nat.eq_or_lt_of_le hk1 with he | hl
      · exact he ▸ hnn
      · exact hrec.2.2 k hl (by simpa [lowestFreeAux, if_pos hn] using hk2)
    · rw [lowestFreeAux, if_neg hn]
      exact ⟨by simpa using hn, le_refl n, fun k hk1 hk2 => absurd hk1 (by omega)⟩

theorem lowestFree_not_mem (used : List Nat) : lowestFree used ∉ used := by
  obtain ⟨m, h1, h2⟩ := exists_not_mem_le_length used
  exact (lowestFreeAux_spec used (used.length + 1) 0 ⟨m, Nat.zero_le m, by omega, h2⟩).1

theorem lowestFree_min (used : List Nat) : ∀ k, k < lowestFree used → k ∈ used := by
  obtain ⟨m, h1, h2⟩ := exists_not_mem_le_length used
  intro k hk
  exact (lowestFreeAux_spec used (used.length + 1) 0
    ⟨m, Nat.zero_le m, by omega, h2⟩).2.2 k (Nat.zero_le k) hk

/-! ## The reservation invariant of `calculateLanes` -/

/-- Well-formedness of the pending-reservation map: keys are distinct, no two
pending parents share a lane, and every reserved lane is below `nextLane`. -/
def goodRes (m : JMap) (next : Nat) : Prop :=
  m.keys.Nodup ∧ m.values.Nodup ∧ ∀ v ∈ m.values, v < next

/-- The forward-pass invariant of `calculateLanes`. -/
def goodState (st : LaneState) : Prop :=
  goodRes st.reservedLanes st.nextLane

theorem goodRes_delete {m : JMap} {next : Nat} (h : goodRes m next) (k : String) :
    goodRes (m.delete k) next := by
  obtain ⟨h1, h2, h3⟩ := h
  have hsub := JMap.delete_sublist m k
  exact ⟨h1.sublist (hsub.map Prod.fst), h2.sublist (hsub.map Prod.snd),
    fun v hv => h3 v ((hsub.map Prod.snd).mem hv)⟩

theorem goodRes_mono {m : JMap} {next next' : Nat} (h : goodRes m next) (hle : next ≤ next') :
    goodRes m next' :=
  ⟨h.1, h.2.1, fun v hv => lt_of_lt_of_le (h.2.2 v hv) hle⟩

theorem goodRes_set_fresh {m : JMap} {next next' : Nat} {k : String} {v : Nat}
    (h : goodRes m next) (hk : m.lookup k = none) (hv : v ∉ m.values)
    (hvlt : v < next') (hle : next ≤ next') : goodRes (m.set k v) next' := by
  obtain ⟨h1, h2, h3⟩ := h
  rw [JMap.set_of_lookup_none m k v hk]
  refine ⟨?_, ?_, ?_⟩
  · rw [JMap.keys_append]
    simp only [JMap.keys, List.map_cons, List.map_nil]
    rw [List.nodup_append]
    refine ⟨h1, List.nodup_singleton k, fun a ha hb => ?_⟩
    simp only [List.mem_singleton] at hb
    subst hb
    exact absurd ((JMap.lookup_isSome_iff_keys m a).mpr ha) (by simp [hk])
  · rw [JMap.values_append]
    simp only [JMap.values, List.map_cons, List.map_nil]
    rw [List.nodup_append]
    exact ⟨h2, List.nodup_singleton v, fun a ha hb => by
      simp only [List.mem_singleton] at hb
      exact hv (hb ▸ ha)⟩
  · rw [JMap.values_append]
    intro w hw
    simp only [JMap.values, List.map_cons, List.map_nil, List.mem_append,
      List.mem_singleton] at hw
    rcases hw with hw | hw
    · exact lt_of_lt_of_le (h3 w hw) hle
    · exact hw ▸ hvlt

/-- A value looked up in a value-duplicate-free map does not survive deletion
of its key. -/
theorem not_mem_values_delete_of_lookup (m : JMap) :
    ∀ (k : String) (v : Nat), m.values.Nodup → m.lookup k = some v →
      v ∉ (m.delete k).values := by
  induction m with
  | nil => intro k v _ hk; simp [JMap.lookup] at hk
  | cons hd tl ih =>
    intro k v h2 hk
    obtain ⟨k0, v0⟩ := hd
    simp only [JMap.values, List.map_cons, List.nodup_cons] at h2
    by_cases h0 : k0 = k
    · rw [JMap.lookup, if_pos h0, Option.some_inj] at hk
      rw [JMap.delete, if_pos h0]
      exact hk ▸ h2.1
    · rw [JMap.lookup, if_neg h0] at hk
      rw [JMap.delete, if_neg h0]
      simp only [JMap.values, List.map_cons, List.mem_cons]
      rintro (he | he)
      · exact h2.1 (he ▸ JMap.mem_values_of_lookup tl k v hk)
      · exact ih k v h2.2 hk he

theorem goodRes_reserveExtraParent {acc : JMap × Nat} (h : goodRes acc.1 acc.2) (p : String) :
    goodRes (reserveExtraParent acc p).1 (reserveExtraParent acc p).2 := by
  by_cases hp : acc.1.has p
  · simpa [reserveExtraParent, hp] using h
  · have hnone : acc.1.lookup p = none := (JMap.has_eq_false acc.1 p).mp (by simpa using hp)
    simp only [reserveExtraParent, hp, Bool.false_eq_true, if_false]
    exact goodRes_set_fresh h hnone (lowestFree_not_mem _) (by omega) (le_max_left _ _)

theorem goodRes_foldl_reserveExtraParent (ps : List String) :
    ∀ acc : JMap × Nat, goodRes acc.1 acc.2 →
      goodRes (ps.foldl reserveExtraParent acc).1 (ps.foldl reserveExtraParent acc).2 := by
  induction ps with
  | nil => intro acc h; exact h
  | cons p ps ih =>
    intro acc h
    exact ih _ (goodRes_reserveExtraParent h p)

theorem goodState_laneStep {st : LaneState} (h : goodState st) (c : GitCommit) :
    goodState (laneStep st c) := by
  obtain ⟨h1, h2, h3⟩ := h
  by_cases hres : st.reservedLanes.has c.hash
  · obtain ⟨a, ha⟩ := Option.isSome_iff_exists.mp (by simpa [JMap.has] using hres)
    have hassigned : assignedLaneOf st c = a := by
      simp [assignedLaneOf, hres, JMap.getD, ha]
    have hg1 : goodRes (st.reservedLanes.delete c.hash) st.nextLane :=
      goodRes_delete ⟨h1, h2, h3⟩ c.hash
    have hanotin : a ∉ (st.reservedLanes.delete c.hash).values :=
      not_mem_values_delete_of_lookup _ _ _ h2 ha
    have halt : a < st.nextLane := h3 a (JMap.mem_values_of_lookup _ _ _ ha)
    cases hp : c.parents with
    | nil =>
      simp only [goodState, laneStep, hres, if_true, hp]
      exact hg1
    | cons fp rest =>
      have hg2 : goodRes (if (st.reservedLanes.delete c.hash).has fp then
          st.reservedLanes.delete c.hash
          else (st.reservedLanes.delete c.hash).set fp (assignedLaneOf st c)) st.nextLane := by
        by_cases hfp : (st.reservedLanes.delete c.hash).has fp
        · simpa [hfp] using hg1
        · rw [if_neg (by simpa using hfp)]
          exact goodRes_set_fresh hg1 ((JMap.has_eq_false _ _).mp (by simpa using hfp))
            (hassigned ▸ hanotin) (hassigned ▸ halt) (le_refl _)
      have := goodRes_foldl_reserveExtraParent rest (_, st.nextLane) hg2
      simp only [goodState, laneStep, hres, if_true, hp]
      exact this
  · have hassigned : assignedLaneOf st c = st.nextLane := by
      simp [assignedLaneOf, hres]
    have hg1 : goodRes st.reservedLanes (st.nextLane + 1) :=
      goodRes_mono ⟨h1, h2, h3⟩ (by omega)
    cases hp : c.parents with
    | nil =>
      simp only [goodState, laneStep, hres, Bool.false_eq_true, if_false, hp]
      exact hg1
    | cons fp rest =>
      have hg2 : goodRes (if st.reservedLanes.has fp then st.reservedLanes
          else st.reservedLanes.set fp (assignedLaneOf st c)) (st.nextLane + 1) := by
        by_cases hfp : st.reservedLanes.has fp
        · simpa [hfp] using hg1
        · rw [if_neg (by simpa using hfp)]
          refine goodRes_set_fresh hg1 ((JMap.has_eq_false _ _).mp (by simpa using hfp)) ?_
            (by omega) (le_refl _)
          rw [hassigned]
          intro hmem
          exact absurd (h3 _ hmem) (by omega)
      have := goodRes_foldl_reserveExtraParent rest (_, st.nextLane + 1) hg2
      simp only [goodState, laneStep, hres, Bool.false_eq_true, if_false, hp]
      exact this

theorem goodState_foldl (l : List GitCommit) :
    ∀ st : LaneState, goodState st → goodState (l.foldl laneStep st) := by
  induction l with
  | nil => intro st h; exact h
  | cons c l ih => intro st h; exact ih _ (goodState_laneStep h c)

theorem goodState_laneInit : goodState laneInit := by
  refine ⟨by simp [laneInit, JMap.keys], by simp [laneInit, JMap.values], ?_⟩
  simp [laneInit, JMap.values]


/-! ## Persistence and assignment lemmas for the forward pass -/

theorem assignedLaneOf_of_lookup {st : LaneState} {c : GitCommit} {v : Nat}
    (h : st.reservedLanes.lookup c.hash = some v) : assignedLaneOf st c = v := by
  simp [assignedLaneOf, JMap.has, JMap.getD, h]

/-- A commit visited while some other hash holds a pending reservation never
takes that reservation's lane. -/
theorem assignedLaneOf_ne_reserved {st : LaneState} (hg : goodState st) {h : String} {v : Nat}
    (hv : st.reservedLanes.lookup h = some v) {c : GitCommit} (hne : c.hash ≠ h) :
    assignedLaneOf st c ≠ v := by
  by_cases hres : st.reservedLanes.has c.hash
  · obtain ⟨a, ha⟩ := Option.isSome_iff_exists.mp (by simpa [JMap.has] using hres)
    rw [assignedLaneOf_of_lookup ha]
    exact JMap.lookup_ne_of_nodup st.reservedLanes c.hash h a v hg.1 hg.2.1 ha hv hne
  · have : assignedLaneOf st c = st.nextLane := by simp [assignedLaneOf, hres]
    rw [this]
    have hvlt := hg.2.2 v (JMap.mem_values_of_lookup _ _ _ hv)
    omega

theorem laneStep_commitLanes (st : LaneState) (c : GitCommit) :
    (laneStep st c).commitLanes = st.commitLanes.set c.hash (assignedLaneOf st c) := by
  cases hp : c.parents <;> simp [laneStep, hp]

theorem reserveExtraParent_lookup_some {acc : JMap × Nat} {p h : String} {v : Nat}
    (hv : acc.1.lookup h = some v) : (reserveExtraParent acc p).1.lookup h = some v := by
  by_cases hp : acc.1.has p
  · simp [reserveExtraParent, hp, hv]
  · by_cases hph : p = h
    · subst hph
      rw [JMap.has, hv] at hp
      simp at hp
    · simp only [reserveExtraParent, hp, Bool.false_eq_true, if_false]
      rw [JMap.lookup_set, if_neg hph]
      exact hv

theorem foldl_reserveExtraParent_lookup_some (ps : List String) :
    ∀ (acc : JMap × Nat) (h : String) (v : Nat), acc.1.lookup h = some v →
      (ps.foldl reserveExtraParent acc).1.lookup h = some v := by
  induction ps with
  | nil => intro acc h v hv; exact hv
  | cons p ps ih =>
    intro acc h v hv
    exact ih _ h v (reserveExtraParent_lookup_some hv)

/-- A pending reservation for a hash other than the visited commit's survives
a step of the pass untouched (first-writer-wins). -/
theorem laneStep_reserved_lookup {st : LaneState} {c : GitCommit} {h : String} {v : Nat}
    (hne : c.hash ≠ h) (hv : st.reservedLanes.lookup h = some v) :
    (laneStep st c).reservedLanes.lookup h = some v := by
  have h1 : (if st.reservedLanes.has c.hash then st.reservedLanes.delete c.hash
      else st.reservedLanes).lookup h = some v := by
    by_cases hres : st.reservedLanes.has c.hash
    · rw [if_pos hres, JMap.lookup_delete_ne _ _ _ hne]
      exact hv
    · rw [if_neg (by simpa using hres)]
      exact hv
  cases hp : c.parents with
  | nil => simpa [laneStep, hp] using h1
  | cons fp rest =>
    have h2 : (if (if st.reservedLanes.has c.hash then st.reservedLanes.delete c.hash
        else st.reservedLanes).has fp then
          (if st.reservedLanes.has c.hash then st.reservedLanes.delete c.hash
            else st.reservedLanes)
        else (if st.reservedLanes.has c.hash then st.reservedLanes.delete c.hash
            else st.reservedLanes).set fp (assignedLaneOf st c)).lookup h = some v := by
      set r1 := if st.reservedLanes.has c.hash then st.reservedLanes.delete c.hash
        else st.reservedLanes
      by_cases hfp : r1.has fp
      · rw [if_pos hfp]; exact h1
      · by_cases hph : fp = h
        · subst hph
          rw [JMap.has, h1] at hfp
          simp at hfp
        · rw [if_neg (by simpa using hfp), JMap.lookup_set, if_neg hph]
          exact h1
    simp only [laneStep, hp]
    exact foldl_reserveExtraParent_lookup_some rest _ h v h2

theorem foldl_laneStep_reserved_lookup (l : List GitCommit) :
    ∀ (st : LaneState) (h : String) (v : Nat), h ∉ l.map GitCommit.hash →
      st.reservedLanes.lookup h = some v →
      ((l.foldl laneStep st).reservedLanes).lookup h = some v := by
  induction l with
  | nil => intro st h v _ hv; exact hv
  | cons c l ih =>
    intro st h v hmem hv
    simp only [List.map_cons, List.mem_cons] at hmem
    push_neg at hmem
    exact ih _ h v hmem.2 (laneStep_reserved_lookup (fun he => hmem.1 he.symm) hv)

theorem reserveExtraParent_lookup_isSome {acc : JMap × Nat} {p h : String}
    (hv : (acc.1.lookup h).isSome) : ((reserveExtraParent acc p).1.lookup h).isSome := by
  obtain ⟨v, hv⟩ := Option.isSome_iff_exists.mp hv
  rw [reserveExtraParent_lookup_some hv]
  rfl

theorem reserveExtraParent_lookup_isSome_self (acc : JMap × Nat) (p : String) :
    ((reserveExtraParent acc p).1.lookup p).isSome := by
  cases hl : acc.1.lookup p with
  | some v =>
    rw [reserveExtraParent_lookup_some hl]
    rfl
  | none =>
    have hp : acc.1.has p = false := by simp [JMap.has, hl]
    simp only [reserveExtraParent, hp, Bool.false_eq_true, if_false]
    rw [JMap.lookup_set, if_pos rfl]
    rfl

theorem foldl_reserveExtraParent_isSome (ps : List String) :
    ∀ (acc : JMap × Nat) (h : String), (acc.1.lookup h).isSome →
      ((ps.foldl reserveExtraParent acc).1.lookup h).isSome := by
  induction ps with
  | nil => intro acc h hv; exact hv
  | cons p ps ih =>
    intro acc h hv
    exact ih _ h (reserveExtraParent_lookup_isSome hv)

theorem foldl_reserveExtraParent_isSome_of_mem (ps : List String) :
    ∀ (acc : JMap × Nat) (p : String), p ∈ ps →
      ((ps.foldl reserveExtraParent acc).1.lookup p).isSome := by
  induction ps with
  | nil => intro acc p hp; simp at hp
  | cons q ps ih =>
    intro acc p hp
    rcases List.mem_cons.mp hp with he | hm
    · subst he
      exact foldl_reserveExtraParent_isSome ps _ p (reserveExtraParent_lookup_isSome_self acc p)
    · exact ih _ p hm

/-- After `laneStep st c`, every parent of `c` holds a reservation. -/
theorem laneStep_reserves_parent {st : LaneState} {c : GitCommit} {p : String}
    (hp : p ∈ c.parents) : (((laneStep st c).reservedLanes).lookup p).isSome := by
  cases hpp : c.parents with
  | nil => rw [hpp] at hp; simp at hp
  | cons fp rest =>
    rw [hpp] at hp
    set r1 := if st.reservedLanes.has c.hash then st.reservedLanes.delete c.hash
      else st.reservedLanes with hr1
    have hfirst : ((if r1.has fp then r1 else r1.set fp (assignedLaneOf st c)).lookup fp).isSome := by
      by_cases hfp : r1.has fp
      · rw [if_pos hfp]
        exact hfp
      · rw [if_neg (by simpa using hfp), JMap.lookup_set, if_pos rfl]
        rfl
    rcases List.mem_cons.mp hp with he | hm
    · subst he
      simp only [laneStep, hpp]
      obtain ⟨v, hv⟩ := Option.isSome_iff_exists.mp hfirst
      rw [foldl_reserveExtraParent_lookup_some rest _ p v (by exact hv)]
      rfl
    · simp only [laneStep, hpp]
      exact foldl_reserveExtraParent_isSome_of_mem rest _ p hm

theorem foldl_laneStep_commitLanes_not_mem (l : List GitCommit) :
    ∀ (st : LaneState) (h : String), h ∉ l.map GitCommit.hash →
      ((l.foldl laneStep st).commitLanes).lookup h = st.commitLanes.lookup h := by
  induction l with
  | nil => intro st h _; rfl
  | cons c l ih =>
    intro st h hmem
    simp only [List.map_cons, List.mem_cons] at hmem
    push_neg at hmem
    simp only [List.foldl_cons]
    rw [ih _ h hmem.2, laneStep_commitLanes, JMap.lookup_set,
      if_neg (fun he => hmem.1 he.symm)]


/-! ## Prefix states of the forward pass -/

/-- The pass state after visiting the first `k` commits. -/
def stateAt (commits : List GitCommit) (k : Nat) : LaneState :=
  (commits.take k).foldl laneStep laneInit

theorem goodState_stateAt (commits : List GitCommit) (k : Nat) :
    goodState (stateAt commits k) :=
  goodState_foldl _ _ goodState_laneInit

theorem stateAt_succ {commits : List GitCommit} {k : Nat} (h : k < commits.length) :
    stateAt commits (k + 1) = laneStep (stateAt commits k) (cAt commits k) := by
  have ht : commits.take (k + 1) = commits.take k ++ [commits[k]] := by
    rw [List.take_succ, List.getElem?_eq_getElem h]
    rfl
  have hc : cAt commits k = commits[k] := List.getD_eq_getElem commits default h
  rw [stateAt, ht, List.foldl_append, hc]
  rfl

theorem calculateLanes_eq_stateAt (commits : List GitCommit) :
    calculateLanes commits = (stateAt commits commits.length).commitLanes := by
  rw [stateAt, List.take_length]
  rfl

theorem hash_ne_of_nodup {commits : List GitCommit} (hnd : (commits.map GitCommit.hash).Nodup)
    {a b : Nat} (hab : a ≠ b) (ha : a < commits.length) (hb : b < commits.length) :
    (cAt commits a).hash ≠ (cAt commits b).hash := by
  have hma : a < (commits.map GitCommit.hash).length := by simpa using ha
  have hmb : b < (commits.map GitCommit.hash).length := by simpa using hb
  have h1 : (cAt commits a).hash = (commits.map GitCommit.hash)[a] := by
    rw [cAt, List.getD_eq_getElem commits default ha, List.getElem_map]
  have h2 : (cAt commits b).hash = (commits.map GitCommit.hash)[b] := by
    rw [cAt, List.getD_eq_getElem commits default hb, List.getElem_map]
  rw [h1, h2]
  intro he
  exact hab (List.Nodup.getElem_inj_iff hnd |>.mp he)

theorem hash_not_in_take {commits : List GitCommit} (hnd : (commits.map GitCommit.hash).Nodup)
    {m j : Nat} (hmj : m ≤ j) (hj : j < commits.length) :
    (cAt commits j).hash ∉ (commits.take m).map GitCommit.hash := by
  intro hmem
  rw [List.map_take] at hmem
  obtain ⟨a, ha, hae⟩ := List.mem_take_iff_getElem.mp hmem
  have halen : a < commits.length := by
    simp only [Nat.lt_min, List.length_map] at ha
    exact ha.2
  have hane : a ≠ j := by
    simp only [Nat.lt_min] at ha
    omega
  apply hash_ne_of_nodup hnd hane halen hj
  have hc : cAt commits a = commits[a] := List.getD_eq_getElem commits default halen
  rw [hc, ← List.getElem_map GitCommit.hash]
  exact hae

theorem hash_not_in_drop {commits : List GitCommit} (hnd : (commits.map GitCommit.hash).Nodup)
    {j : Nat} (hj : j < commits.length) :
    (cAt commits j).hash ∉ (commits.drop (j + 1)).map GitCommit.hash := by
  intro hmem
  rw [List.map_drop] at hmem
  obtain ⟨a, ha, hae⟩ := List.mem_iff_getElem.mp hmem
  rw [List.getElem_drop] at hae
  have halen : j + 1 + a < commits.length := by
    simp only [List.length_drop, List.length_map] at ha
    omega
  have hane : j + 1 + a ≠ j := by omega
  apply hash_ne_of_nodup hnd hane halen hj
  have hc : cAt commits (j + 1 + a) = commits[j + 1 + a] :=
    List.getD_eq_getElem commits default halen
  rw [hc, ← List.getElem_map GitCommit.hash]
  exact hae

/-- With duplicate-free hashes, the final lane of the commit at row `r` is the
lane chosen for it when it was visited. -/
theorem calculateLanes_lookup_eq_assigned {commits : List GitCommit}
    (hnd : (commits.map GitCommit.hash).Nodup) {r : Nat} (hr : r < commits.length) :
    (calculateLanes commits).lookup ((cAt commits r).hash) =
      some (assignedLaneOf (stateAt commits r) (cAt commits r)) := by
  have hsplit : commits = commits.take r ++ commits.drop r := (List.take_append_drop r commits).symm
  have hdrop : commits.drop r = commits[r] :: commits.drop (r + 1) :=
    List.drop_eq_getElem_cons hr
  have hc : cAt commits r = commits[r] := List.getD_eq_getElem commits default hr
  have hfold : calculateLanes commits =
      ((commits.drop (r + 1)).foldl laneStep (laneStep (stateAt commits r) (cAt commits r))).commitLanes := by
    rw [calculateLanes]
    conv in commits.foldl _ _ => rw [hsplit]
    rw [List.foldl_append, hdrop, List.foldl_cons, ← hc]
    rfl
  rw [hfold, foldl_laneStep_commitLanes_not_mem _ _ _ (hash_not_in_drop hnd hr),
    laneStep_commitLanes, JMap.lookup_set, if_pos rfl]

/-- A reservation standing after row `i + 1`, for the hash of the commit at a
later row `j`, persists unchanged to every pass state up to row `j`. -/
theorem reserved_persist {commits : List GitCommit} (hnd : (commits.map GitCommit.hash).Nodup)
    {m0 j : Nat} (hj : j < commits.length) {w : Nat}
    (hw : (stateAt commits m0).reservedLanes.lookup ((cAt commits j).hash) = some w) :
    ∀ m, m0 ≤ m → m ≤ j →
      (stateAt commits m).reservedLanes.lookup ((cAt commits j).hash) = some w := by
  intro m hm1 hm2
  induction m with
  | zero =>
    have : m0 = 0 := by omega
    exact this ▸ hw
  | succ m ih =>
    rcases Nat.eq_or_lt_of_le hm1 with he | hl
    · exact he ▸ hw
    · have hmi : m0 ≤ m := by omega
      have hmj : m ≤ j := by omega
      have hmlen : m < commits.length := by omega
      have hne : (cAt commits m).hash ≠ (cAt commits j).hash :=
        hash_ne_of_nodup hnd (by omega) hmlen hj
      rw [stateAt_succ hmlen]
      exact laneStep_reserved_lookup hne (ih hmi hmj)

/-- Core separation property: while an edge from row `i` to its parent at row
`j` is pending, no commit strictly between the two rows is assigned the
parent's final lane. -/
theorem lane_between_ne {commits : List GitCommit} (hnd : (commits.map GitCommit.hash).Nodup)
    {i r j : Nat} (hir : i < r) (hrj : r < j) (hj : j < commits.length)
    (hp : (cAt commits j).hash ∈ (cAt commits i).parents) :
    (calculateLanes commits).getD ((cAt commits r).hash) ≠
      (calculateLanes commits).getD ((cAt commits j).hash) := by
  have hi : i < commits.length := by omega
  have hr : r < commits.length := by omega
  have hres : (((stateAt commits (i + 1)).reservedLanes).lookup ((cAt commits j).hash)).isSome := by
    rw [stateAt_succ hi]
    exact laneStep_reserves_parent hp
  obtain ⟨w, hw⟩ := Option.isSome_iff_exists.mp hres
  have hatr : (stateAt commits r).reservedLanes.lookup ((cAt commits j).hash) = some w :=
    reserved_persist hnd hj hw r (by omega) (by omega)
  have hatj : (stateAt commits j).reservedLanes.lookup ((cAt commits j).hash) = some w :=
    reserved_persist hnd hj hw j (by omega) (le_refl j)
  have hlanej : (calculateLanes commits).lookup ((cAt commits j).hash) = some w := by
    rw [calculateLanes_lookup_eq_assigned hnd hj, assignedLaneOf_of_lookup hatj]
  have hlaner : (calculateLanes commits).lookup ((cAt commits r).hash) =
      some (assignedLaneOf (stateAt commits r) (cAt commits r)) :=
    calculateLanes_lookup_eq_assigned hnd hr
  have hne : assignedLaneOf (stateAt commits r) (cAt commits r) ≠ w :=
    assignedLaneOf_ne_reserved (goodState_stateAt commits r) hatr
      (hash_ne_of_nodup hnd (by omega) hr hj)
  rw [JMap.getD, JMap.getD, hlanej, hlaner]
  simpa using hne


/-! ## Array-update and set-insertion lemmas -/

theorem length_updateAt {α : Type} (l : List α) (i : Nat) (f : α → α) :
    (updateAt l i f).length = l.length := by
  induction l generalizing i with
  | nil => rfl
  | cons a as ih =>
    cases i with
    | zero => rfl
    | succ n => simp [updateAt, ih]

theorem getD_updateAt_ne {α : Type} (l : List α) (d : α) (f : α → α) {i r : Nat}
    (h : r ≠ i) : (updateAt l i f).getD r d = l.getD r d := by
  induction l generalizing i r with
  | nil => rfl
  | cons a as ih =>
    cases i with
    | zero =>
      cases r with
      | zero => exact absurd rfl h
      | succ m => simp [updateAt]
    | succ n =>
      cases r with
      | zero => simp [updateAt]
      | succ m =>
        simp only [updateAt, List.getD_cons_succ]
        exact ih (fun he => h (by omega))

theorem getD_updateAt_self {α : Type} (l : List α) (d : α) (f : α → α) {i : Nat}
    (h : i < l.length) : (updateAt l i f).getD i d = f (l.getD i d) := by
  induction l generalizing i with
  | nil => simp at h
  | cons a as ih =>
    cases i with
    | zero => simp [updateAt]
    | succ n =>
      simp only [updateAt, List.getD_cons_succ]
      exact ih (by simpa using h)

theorem updateAt_ge_length {α : Type} (l : List α) (i : Nat) (f : α → α)
    (h : l.length ≤ i) : updateAt l i f = l := by
  induction l generalizing i with
  | nil => rfl
  | cons a as ih =>
    cases i with
    | zero => simp at h
    | succ n =>
      simp only [updateAt]
      rw [ih n (by simpa using h)]

theorem mem_listInsert (s : List Nat) (x y : Nat) :
    y ∈ listInsert s x ↔ y ∈ s ∨ y = x := by
  by_cases hc : s.contains x
  · have hx : x ∈ s := by simpa using hc
    simp only [listInsert, if_pos hc]
    constructor
    · exact Or.inl
    · rintro (h | h)
      · exact h
      · exact h ▸ hx
  · simp only [listInsert, if_neg hc, List.mem_append, List.mem_singleton]

theorem length_addRangeAux (lane : Nat) :
    ∀ (c lo : Nat) (pts : List (List Nat)),
      ((List.range' lo c).foldl (fun acc r => updateAt acc r (fun s => listInsert s lane)) pts).length
        = pts.length := by
  intro c
  induction c with
  | zero => intro lo pts; rfl
  | succ c ih =>
    intro lo pts
    rw [List.range'_succ, List.foldl_cons, ih (lo + 1) _, length_updateAt]

theorem getD_addRangeAux (lane r : Nat) :
    ∀ (c lo : Nat) (pts : List (List Nat)),
      ((List.range' lo c).foldl (fun acc r => updateAt acc r (fun s => listInsert s lane)) pts).getD r []
        = if lo ≤ r ∧ r < lo + c ∧ r < pts.length then listInsert (pts.getD r []) lane
          else pts.getD r [] := by
  intro c
  induction c with
  | zero =>
    intro lo pts
    have : ¬ (lo ≤ r ∧ r < lo + 0 ∧ r < pts.length) := by omega
    rw [if_neg this]
    rfl
  | succ c ih =>
    intro lo pts
    rw [List.range'_succ, List.foldl_cons, ih (lo + 1) _]
    rw [length_updateAt]
    by_cases hr : r = lo
    · subst hr
      have hn : ¬ (r + 1 ≤ r ∧ r < r + 1 + c ∧ r < pts.length) := by omega
      rw [if_neg hn]
      by_cases hlen : r < pts.length
      · rw [getD_updateAt_self _ _ _ hlen, if_pos ⟨le_refl r, by omega, hlen⟩]
      · rw [updateAt_ge_length _ _ _ (by omega),
          if_neg (fun hca => hlen hca.2.2)]
    · rw [getD_updateAt_ne _ _ _ hr]
      by_cases hc : lo + 1 ≤ r ∧ r < lo + 1 + c ∧ r < pts.length
      · rw [if_pos hc, if_pos ⟨by omega, by omega, hc.2.2⟩]
      · rw [if_neg hc, if_neg (fun hca => hc ⟨by omega, by omega, hca.2.2⟩)]

theorem length_addRange (pts : List (List Nat)) (lo hi lane : Nat) :
    (addRange pts lo hi lane).length = pts.length :=
  length_addRangeAux lane (hi - lo) lo pts

theorem getD_addRange (pts : List (List Nat)) (lo hi lane r : Nat) :
    (addRange pts lo hi lane).getD r [] =
      if lo ≤ r ∧ r < hi ∧ r < pts.length then listInsert (pts.getD r []) lane
      else pts.getD r [] := by
  rw [addRange, getD_addRangeAux]
  by_cases hc : lo ≤ r ∧ r < hi ∧ r < pts.length
  · rw [if_pos ⟨hc.1, by omega, hc.2.2⟩, if_pos hc]
  · rw [if_neg (fun hca => hc ⟨hca.1, by omega, hca.2.2⟩), if_neg hc]

/-! ## The commit-index map -/

theorem drop_head_facts {commits : List GitCommit} {b : Nat} {c : GitCommit}
    {rest : List GitCommit} (hdrop : commits.drop b = c :: rest) :
    b < commits.length ∧ cAt commits b = c ∧ commits.drop (b + 1) = rest := by
  have hb : commits[b]? = some c := by
    have h0 : (commits.drop b)[0]? = some c := by rw [hdrop]; simp
    rw [List.getElem?_drop] at h0
    simpa using h0
  obtain ⟨hlt, hge⟩ := List.getElem?_eq_some.mp hb
  refine ⟨hlt, ?_, ?_⟩
  · rw [cAt, List.getD_eq_getElem commits default hlt, hge]
  · have hd := List.drop_eq_getElem_cons hlt
    rw [hd, hge] at hdrop
    simpa using congrArg List.tail hdrop

theorem commitIndex_fold_sound (commits : List GitCommit) :
    ∀ (l : List GitCommit) (b : Nat) (m : JMap),
      commits.drop b = l →
      (∀ p j, m.lookup p = some j → j < commits.length ∧ (cAt commits j).hash = p) →
      ∀ p j, ((l.enumFrom b).foldl (fun m ic => m.set ic.2.hash ic.1) m).lookup p = some j →
        j < commits.length ∧ (cAt commits j).hash = p := by
  intro l
  induction l with
  | nil => intro b m _ hm p j hl; exact hm p j hl
  | cons c rest ih =>
    intro b m hdrop hm p j hl
    obtain ⟨hblen, hbc, hdrop'⟩ := drop_head_facts hdrop
    rw [List.enumFrom_cons, List.foldl_cons] at hl
    refine ih (b + 1) _ hdrop' ?_ p j hl
    intro q i hq
    rw [JMap.lookup_set] at hq
    by_cases hqc : c.hash = q
    · rw [if_pos hqc, Option.some_inj] at hq
      subst hq
      exact ⟨hblen, by rw [hbc, hqc]⟩
    · rw [if_neg hqc] at hq
      exact hm q i hq

theorem commitIndex_fold_isSome :
    ∀ (l : List GitCommit) (b : Nat) (m : JMap) (p : String),
      ((m.lookup p).isSome ∨ p ∈ l.map GitCommit.hash) →
      (((l.enumFrom b).foldl (fun m ic => m.set ic.2.hash ic.1) m).lookup p).isSome := by
  intro l
  induction l with
  | nil =>
    intro b m p hp
    rcases hp with hp | hp
    · exact hp
    · simp at hp
  | cons c rest ih =>
    intro b m p hp
    rw [List.enumFrom_cons, List.foldl_cons]
    by_cases hqc : c.hash = p
    · refine ih (b + 1) _ p (Or.inl ?_)
      rw [JMap.lookup_set, if_pos hqc]
      rfl
    · refine ih (b + 1) _ p ?_
      rcases hp with hp | hp
      · left
        rw [JMap.lookup_set, if_neg hqc]
        exact hp
      · simp only [List.map_cons, List.mem_cons] at hp
        rcases hp with hp | hp
        · exact absurd hp.symm hqc
        · exact Or.inr hp

theorem commitIndex_lookup_sound {commits : List GitCommit} {p : String} {j : Nat}
    (h : (commitIndexOf commits).lookup p = some j) :
    j < commits.length ∧ (cAt commits j).hash = p := by
  refine commitIndex_fold_sound commits commits 0 [] rfl ?_ p j h
  intro q i hq
  simp [JMap.lookup] at hq

theorem commitIndex_lookup_isSome (commits : List GitCommit) {j : Nat}
    (hj : j < commits.length) :
    ((commitIndexOf commits).lookup ((cAt commits j).hash)).isSome := by
  refine commitIndex_fold_isSome commits 0 [] _ (Or.inr ?_)
  have hc : cAt commits j = commits[j] := List.getD_eq_getElem commits default hj
  rw [hc]
  exact List.mem_map_of_mem GitCommit.hash (commits.getElem_mem hj)

/-- With duplicate-free hashes, `commitIndex` maps each commit's hash to its
row. -/
theorem commitIndex_lookup_of_nodup {commits : List GitCommit}
    (hnd : (commits.map GitCommit.hash).Nodup) {j : Nat} (hj : j < commits.length) :
    (commitIndexOf commits).lookup ((cAt commits j).hash) = some j := by
  obtain ⟨i, hi⟩ := Option.isSome_iff_exists.mp (commitIndex_lookup_isSome commits hj)
  obtain ⟨hilen, hieq⟩ := commitIndex_lookup_sound hi
  by_cases hij : i = j
  · exact hij ▸ hi
  · exact absurd hieq (hash_ne_of_nodup hnd hij hilen hj)


/-! ## The main-loop invariant of `calculateRowGraphData` -/

/-- Edges already processed when the pass has fully handled rows `< ed` and,
within row `ed`, the parents in `dp`. -/
def EdgeDone (commits : List GitCommit) (ed : Nat) (dp : List String)
    (i : Nat) (p : String) (j : Nat) : Prop :=
  FwdEdge commits i p j ∧ (i < ed ∨ (i = ed ∧ p ∈ dp))

/-- State description of the main loop: `hm` rows have had `hasIncoming`
written; the edges of `EdgeDone ed dp` have been processed. -/
structure LoopInv (commits : List GitCommit) (laneMap : JMap) (hm ed : Nat)
    (dp : List String) (st : RowState) : Prop where
  rlen : st.rows.length = commits.length
  plen : st.pts.length = commits.length
  inv_in : ∀ r, r < commits.length →
    (st.rows.getD r default).hasIncoming =
      if r < hm then
        (childLookup (childMapOf commits) (cAt commits r).hash).any (fun j => decide (j < r))
      else false
  inv_out : ∀ r, r < commits.length →
    ((st.rows.getD r default).hasOutgoing = true ↔ ∃ p j, EdgeDone commits ed dp r p j)
  inv_mout : ∀ r, r < commits.length → ∀ L,
    (L ∈ (st.rows.getD r default).mergeOutgoingToLanes ↔
      ∃ p j, EdgeDone commits ed dp r p j ∧ laneMap.getD p = L ∧
        L ≠ laneMap.getD (cAt commits r).hash)
  inv_min : ∀ r, r < commits.length → ∀ L,
    (L ∈ (st.rows.getD r default).mergeIncomingFromLanes ↔
      ∃ i p, EdgeDone commits ed dp i p r ∧ laneMap.getD (cAt commits i).hash = L ∧
        laneMap.getD p ≠ L)
  inv_pts : ∀ r, r < commits.length → ∀ L,
    (L ∈ st.pts.getD r [] ↔
      ∃ i p j, EdgeDone commits ed dp i p j ∧ i < r ∧ r < j ∧ laneMap.getD p = L)

theorem edgeDone_append (commits : List GitCommit) (ed : Nat) (dp : List String)
    (p : String) (i : Nat) (q : String) (j : Nat) :
    EdgeDone commits ed (dp ++ [p]) i q j ↔
      EdgeDone commits ed dp i q j ∨ (FwdEdge commits i q j ∧ i = ed ∧ q = p) := by
  unfold EdgeDone
  simp only [List.mem_append, List.mem_singleton]
  tauto

theorem edgeDone_nil_succ (commits : List GitCommit) (ed : Nat) (i : Nat) (q : String) (j : Nat) :
    EdgeDone commits (ed + 1) [] i q j ↔
      EdgeDone commits ed ((cAt commits ed).parents) i q j := by
  unfold EdgeDone FwdEdge
  constructor
  · rintro ⟨hf, hlt | ⟨he, hmem⟩⟩
    · rcases Nat.lt_succ_iff_lt_or_eq.mp hlt with h | h
      · exact ⟨hf, Or.inl h⟩
      · exact ⟨hf, Or.inr ⟨h, h ▸ hf.1⟩⟩
    · simp at hmem
  · rintro ⟨hf, hlt | ⟨he, _⟩⟩
    · exact ⟨hf, Or.inl (by omega)⟩
    · exact ⟨hf, Or.inl (by omega)⟩

theorem getD_map_const {α β : Type} (l : List α) (c : β) (d : β) {r : Nat}
    (h : r < l.length) : (l.map (fun _ => c)).getD r d = c := by
  have hlen : r < (l.map (fun _ => c)).length := by simpa using h
  rw [List.getD_eq_getElem _ _ hlen, List.getElem_map]

/-- The invariant holds initially (nothing processed, all rows blank). -/
theorem loopInv_init (commits : List GitCommit) (laneMap : JMap) :
    LoopInv commits laneMap 0 0 []
      ⟨commits.map (fun _ => default), commits.map (fun _ => [])⟩ := by
  have hedge : ∀ i p j, ¬ EdgeDone commits 0 [] i p j := by
    rintro i p j ⟨_, h | ⟨_, hmem⟩⟩
    · omega
    · simp at hmem
  refine ⟨by simp, by simp, ?_, ?_, ?_, ?_, ?_⟩
  · intro r hr
    rw [getD_map_const _ _ _ hr]
    rfl
  · intro r hr
    rw [getD_map_const _ _ _ hr]
    constructor
    · intro h; simp [default] at h
    · rintro ⟨p, j, he⟩; exact absurd he (hedge r p j)
  · intro r hr L
    rw [getD_map_const _ _ _ hr]
    constructor
    · intro h; simp [default] at h
    · rintro ⟨p, j, he, _⟩; exact absurd he (hedge r p j)
  · intro r hr L
    rw [getD_map_const _ _ _ hr]
    constructor
    · intro h; simp [default] at h
    · rintro ⟨i, p, he, _⟩; exact absurd he (hedge i p r)
  · intro r hr L
    rw [getD_map_const _ _ _ hr]
    constructor
    · intro h; simp at h
    · rintro ⟨i, p, j, he, _⟩; exact absurd he (hedge i p j)


/-- Processing one parent `p` of row `base` extends the processed edge set by
exactly the edges `(base, p, ·)`. -/
theorem processParent_inv {commits : List GitCommit} {laneMap : JMap} {base : Nat}
    {dp : List String} {p : String} {st : RowState}
    (hbase : base < commits.length)
    (hp_mem : p ∈ (cAt commits base).parents)
    (hinv : LoopInv commits laneMap (base + 1) base dp st) :
    LoopInv commits laneMap (base + 1) base (dp ++ [p])
      (processParent (commitIndexOf commits) laneMap base
        (laneMap.getD ((cAt commits base).hash)) st p) := by
  cases hlook : (commitIndexOf commits).lookup p with
  | none =>
    have heq : ∀ i q j'', EdgeDone commits base (dp ++ [p]) i q j'' ↔
        EdgeDone commits base dp i q j'' := by
      intro i q j''
      rw [edgeDone_append]
      constructor
      · rintro (h | ⟨⟨_, hl, _⟩, _, rfl⟩)
        · exact h
        · rw [hlook] at hl
          exact absurd hl (by simp)
      · exact Or.inl
    simp only [processParent, hlook]
    exact ⟨hinv.rlen, hinv.plen, hinv.inv_in,
      fun r hr => by simp only [heq]; exact hinv.inv_out r hr,
      fun r hr L => by simp only [heq]; exact hinv.inv_mout r hr L,
      fun r hr L => by simp only [heq]; exact hinv.inv_min r hr L,
      fun r hr L => by simp only [heq]; exact hinv.inv_pts r hr L⟩
  | some j =>
    by_cases hj : j ≤ base
    · have heq : ∀ i q j'', EdgeDone commits base (dp ++ [p]) i q j'' ↔
          EdgeDone commits base dp i q j'' := by
        intro i q j''
        rw [edgeDone_append]
        constructor
        · rintro (h | ⟨⟨_, hl, hij⟩, he, rfl⟩)
          · exact h
          · rw [hlook, Option.some_inj] at hl
            omega
        · exact Or.inl
      simp only [processParent, hlook, if_pos hj]
      exact ⟨hinv.rlen, hinv.plen, hinv.inv_in,
        fun r hr => by simp only [heq]; exact hinv.inv_out r hr,
        fun r hr L => by simp only [heq]; exact hinv.inv_mout r hr L,
        fun r hr L => by simp only [heq]; exact hinv.inv_min r hr L,
        fun r hr L => by simp only [heq]; exact hinv.inv_pts r hr L⟩
    · obtain ⟨hjlen, hjhash⟩ := commitIndex_lookup_sound hlook
      have hbj : base < j := not_le.mp hj
      have hbrows : base < st.rows.length := by rw [hinv.rlen]; exact hbase
      have hjrows : j < st.rows.length := by rw [hinv.rlen]; exact hjlen
      have hEDa : ∀ i q j'', EdgeDone commits base (dp ++ [p]) i q j'' ↔
          (EdgeDone commits base dp i q j'' ∨ (i = base ∧ q = p ∧ j'' = j)) := by
        intro i q j''
        rw [edgeDone_append]
        constructor
        · rintro (h | ⟨⟨hqm, hl, hij⟩, he, rfl⟩)
          · exact Or.inl h
          · rw [hlook, Option.some_inj] at hl
            exact Or.inr ⟨he, rfl, hl.symm⟩
        · rintro (h | ⟨he, hq, hj''⟩)
          · exact Or.inl h
          · subst he; subst hq; subst hj''
            exact Or.inr ⟨⟨hp_mem, hlook, hbj⟩, rfl, rfl⟩
      simp only [processParent, hlook, if_neg hj]
      by_cases hL : laneMap.getD p = laneMap.getD ((cAt commits base).hash)
      · -- parent lane equals the row's own lane: no curve is recorded
        rw [if_neg (by simpa using hL)]
        refine ⟨?_, ?_, ?_, ?_, ?_, ?_, ?_⟩
        · rw [length_updateAt]; exact hinv.rlen
        · rw [length_addRange]; exact hinv.plen
        · intro r hr
          by_cases hrb : r = base
          · subst hrb
            rw [getD_updateAt_self _ _ _ hbrows]
            exact hinv.inv_in r hr
          · rw [getD_updateAt_ne _ _ _ hrb]
            exact hinv.inv_in r hr
        · intro r hr
          simp only [hEDa]
          by_cases hrb : r = base
          · subst hrb
            rw [getD_updateAt_self _ _ _ hbrows]
            constructor
            · intro _
              exact ⟨p, j, Or.inr ⟨rfl, rfl, rfl⟩⟩
            · intro _
              rfl
          · rw [getD_updateAt_ne _ _ _ hrb]
            rw [hinv.inv_out r hr]
            constructor
            · rintro ⟨q, j'', h⟩
              exact ⟨q, j'', Or.inl h⟩
            · rintro ⟨q, j'', h | ⟨he, _, _⟩⟩
              · exact ⟨q, j'', h⟩
              · exact absurd he hrb
        · intro r hr L
          simp only [hEDa]
          have hstep : ∀ s : List RowGraphData,
              (L ∈ (s.getD r default).mergeOutgoingToLanes ↔
                ∃ q j'', EdgeDone commits base dp r q j'' ∧ laneMap.getD q = L ∧
                  L ≠ laneMap.getD ((cAt commits r).hash)) →
              (L ∈ (s.getD r default).mergeOutgoingToLanes ↔
                ∃ q j'', (EdgeDone commits base dp r q j'' ∨ (r = base ∧ q = p ∧ j'' = j)) ∧
                  laneMap.getD q = L ∧ L ≠ laneMap.getD ((cAt commits r).hash)) := by
            intro s hbase'
            rw [hbase']
            constructor
            · rintro ⟨q, j'', h1, h2, h3⟩
              exact ⟨q, j'', Or.inl h1, h2, h3⟩
            · rintro ⟨q, j'', h1 | ⟨he, hq, _⟩, h2, h3⟩
              · exact ⟨q, j'', h1, h2, h3⟩
              · subst he; subst hq
                rw [hL] at h2
                exact absurd h2.symm h3
          by_cases hrb : r = base
          · subst hrb
            have hgo : ((updateAt st.rows r (fun row => { row with hasOutgoing := true })).getD
                r default).mergeOutgoingToLanes = (st.rows.getD r default).mergeOutgoingToLanes := by
              rw [getD_updateAt_self _ _ _ hbrows]
            rw [hgo]
            exact hstep st.rows (hinv.inv_mout r hr L)
          · rw [getD_updateAt_ne _ _ _ hrb]
            exact hstep st.rows (hinv.inv_mout r hr L)
        · intro r hr L
          simp only [hEDa]
          have hstep : (L ∈ (st.rows.getD r default).mergeIncomingFromLanes ↔
              ∃ i q, (EdgeDone commits base dp i q r ∨ (i = base ∧ q = p ∧ r = j)) ∧
                laneMap.getD ((cAt commits i).hash) = L ∧ laneMap.getD q ≠ L) := by
            rw [hinv.inv_min r hr L]
            constructor
            · rintro ⟨i, q, h1, h2, h3⟩
              exact ⟨i, q, Or.inl h1, h2, h3⟩
            · rintro ⟨i, q, h1 | ⟨he, hq, hrj⟩, h2, h3⟩
              · exact ⟨i, q, h1, h2, h3⟩
              · subst he; subst hq
                rw [hL, h2] at h3
                exact absurd rfl h3
          by_cases hrb : r = base
          · subst hrb
            have hgo : ((updateAt st.rows r (fun row => { row with hasOutgoing := true })).getD
                r default).mergeIncomingFromLanes = (st.rows.getD r default).mergeIncomingFromLanes := by
              rw [getD_updateAt_self _ _ _ hbrows]
            rw [hgo]
            exact hstep
          · rw [getD_updateAt_ne _ _ _ hrb]
            exact hstep
        · intro r hr L
          simp only [hEDa]
          rw [getD_addRange]
          have hrpts : r < st.pts.length := by rw [hinv.plen]; exact hr
          by_cases hrange : base + 1 ≤ r ∧ r < j
          · rw [if_pos ⟨hrange.1, hrange.2, hrpts⟩, mem_listInsert,
              hinv.inv_pts r hr L]
            constructor
            · rintro (⟨i, q, j'', h1, h2, h3, h4⟩ | hLp)
              · exact ⟨i, q, j'', Or.inl h1, h2, h3, h4⟩
              · exact ⟨base, p, j, Or.inr ⟨rfl, rfl, rfl⟩, by omega, hrange.2, hLp.symm⟩
            · rintro ⟨i, q, j'', h1 | ⟨he, hq, hj''⟩, h2, h3, h4⟩
              · exact Or.inl ⟨i, q, j'', h1, h2, h3, h4⟩
              · subst hq
                exact Or.inr h4.symm
          · rw [if_neg (fun hca => hrange ⟨hca.1, hca.2.1⟩), hinv.inv_pts r hr L]
            constructor
            · rintro ⟨i, q, j'', h1, h2, h3, h4⟩
              exact ⟨i, q, j'', Or.inl h1, h2, h3, h4⟩
            · rintro ⟨i, q, j'', h1 | ⟨he, hq, hj''⟩, h2, h3, h4⟩
              · exact ⟨i, q, j'', h1, h2, h3, h4⟩
              · subst he; subst hj''
                exact absurd ⟨by omega, h3⟩ hrange
      · -- parent lane differs: the curve is recorded at both rows
        rw [if_pos (by simpa using hL)]
        have hne_jb : j ≠ base := by omega
        refine ⟨?_, ?_, ?_, ?_, ?_, ?_, ?_⟩
        · rw [length_updateAt, length_updateAt, length_updateAt]; exact hinv.rlen
        · rw [length_addRange]; exact hinv.plen
        · intro r hr
          by_cases hrj : r = j
          · subst hrj
            rw [getD_updateAt_self _ _ _ (by rw [length_updateAt, length_updateAt]; exact hjrows),
              getD_updateAt_ne _ _ _ hne_jb, getD_updateAt_ne _ _ _ hne_jb]
            exact hinv.inv_in r hr
          · rw [getD_updateAt_ne _ _ _ hrj]
            by_cases hrb : r = base
            · subst hrb
              rw [getD_updateAt_self _ _ _ (by rw [length_updateAt]; exact hbrows),
                getD_updateAt_self _ _ _ hbrows]
              exact hinv.inv_in r hr
            · rw [getD_updateAt_ne _ _ _ hrb, getD_updateAt_ne _ _ _ hrb]
              exact hinv.inv_in r hr
        · intro r hr
          simp only [hEDa]
          by_cases hrj : r = j
          · subst hrj
            rw [getD_updateAt_self _ _ _ (by rw [length_updateAt, length_updateAt]; exact hjrows),
              getD_updateAt_ne _ _ _ hne_jb, getD_updateAt_ne _ _ _ hne_jb]
            have hout : ((st.rows.getD r default).hasOutgoing = true ↔
                ∃ q j'', EdgeDone commits base dp r q j'') := hinv.inv_out r hr
            change ((st.rows.getD r default).hasOutgoing = true ↔ _)
            rw [hout]
            constructor
            · rintro ⟨q, j'', h⟩
              exact ⟨q, j'', Or.inl h⟩
            · rintro ⟨q, j'', h | ⟨he, _, _⟩⟩
              · exact ⟨q, j'', h⟩
              · omega
          · rw [getD_updateAt_ne _ _ _ hrj]
            by_cases hrb : r = base
            · subst hrb
              rw [getD_updateAt_self _ _ _ (by rw [length_updateAt]; exact hbrows),
                getD_updateAt_self _ _ _ hbrows]
              constructor
              · intro _
                exact ⟨p, j, Or.inr ⟨rfl, rfl, rfl⟩⟩
              · intro _
                rfl
            · rw [getD_updateAt_ne _ _ _ hrb, getD_updateAt_ne _ _ _ hrb]
              rw [hinv.inv_out r hr]
              constructor
              · rintro ⟨q, j'', h⟩
                exact ⟨q, j'', Or.inl h⟩
              · rintro ⟨q, j'', h | ⟨he, _, _⟩⟩
                · exact ⟨q, j'', h⟩
                · exact absurd he hrb
        · intro r hr L
          simp only [hEDa]
          by_cases hrj : r = j
          · subst hrj
            rw [getD_updateAt_self _ _ _ (by rw [length_updateAt, length_updateAt]; exact hjrows),
              getD_updateAt_ne _ _ _ hne_jb, getD_updateAt_ne _ _ _ hne_jb]
            change (L ∈ (st.rows.getD r default).mergeOutgoingToLanes ↔ _)
            rw [hinv.inv_mout r hr L]
            constructor
            · rintro ⟨q, j'', h1, h2, h3⟩
              exact ⟨q, j'', Or.inl h1, h2, h3⟩
            · rintro ⟨q, j'', h1 | ⟨he, _, _⟩, h2, h3⟩
              · exact ⟨q, j'', h1, h2, h3⟩
              · omega
          · rw [getD_updateAt_ne _ _ _ hrj]
            by_cases hrb : r = base
            · subst hrb
              rw [getD_updateAt_self _ _ _ (by rw [length_updateAt]; exact hbrows),
                getD_updateAt_self _ _ _ hbrows]
              change (L ∈ (st.rows.getD r default).mergeOutgoingToLanes ++ [laneMap.getD p] ↔ _)
              rw [List.mem_append, List.mem_singleton, hinv.inv_mout r hr L]
              constructor
              · rintro (⟨q, j'', h1, h2, h3⟩ | hLp)
                · exact ⟨q, j'', Or.inl h1, h2, h3⟩
                · exact ⟨p, j, Or.inr ⟨rfl, rfl, rfl⟩, hLp.symm, hLp ▸ hL⟩
              · rintro ⟨q, j'', h1 | ⟨he, hq, hj''⟩, h2, h3⟩
                · exact Or.inl ⟨q, j'', h1, h2, h3⟩
                · subst hq
                  exact Or.inr h2.symm
            · rw [getD_updateAt_ne _ _ _ hrb, getD_updateAt_ne _ _ _ hrb]
              rw [hinv.inv_mout r hr L]
              constructor
              · rintro ⟨q, j'', h1, h2, h3⟩
                exact ⟨q, j'', Or.inl h1, h2, h3⟩
              · rintro ⟨q, j'', h1 | ⟨he, _, _⟩, h2, h3⟩
                · exact ⟨q, j'', h1, h2, h3⟩
                · exact absurd he hrb
        · intro r hr L
          simp only [hEDa]
          by_cases hrj : r = j
          · subst hrj
            rw [getD_updateAt_self _ _ _ (by rw [length_updateAt, length_updateAt]; exact hjrows),
              getD_updateAt_ne _ _ _ hne_jb, getD_updateAt_ne _ _ _ hne_jb]
            change (L ∈ (st.rows.getD r default).mergeIncomingFromLanes ++
              [laneMap.getD ((cAt commits base).hash)] ↔ _)
            rw [List.mem_append, List.mem_singleton, hinv.inv_min r hr L]
            constructor
            · rintro (⟨i, q, h1, h2, h3⟩ | hLl)
              · exact ⟨i, q, Or.inl h1, h2, h3⟩
              · exact ⟨base, p, Or.inr ⟨rfl, rfl, rfl⟩, hLl.symm, fun hc => hL (hc.trans hLl)⟩
            · rintro ⟨i, q, h1 | ⟨he, hq, _⟩, h2, h3⟩
              · exact Or.inl ⟨i, q, h1, h2, h3⟩
              · subst he
                exact Or.inr h2.symm
          · rw [getD_updateAt_ne _ _ _ hrj]
            have hstep : (L ∈ (st.rows.getD r default).mergeIncomingFromLanes ↔
                ∃ i q, (EdgeDone commits base dp i q r ∨ (i = base ∧ q = p ∧ r = j)) ∧
                  laneMap.getD ((cAt commits i).hash) = L ∧ laneMap.getD q ≠ L) := by
              rw [hinv.inv_min r hr L]
              constructor
              · rintro ⟨i, q, h1, h2, h3⟩
                exact ⟨i, q, Or.inl h1, h2, h3⟩
              · rintro ⟨i, q, h1 | ⟨_, _, hrj'⟩, h2, h3⟩
                · exact ⟨i, q, h1, h2, h3⟩
                · exact absurd hrj' hrj
            by_cases hrb : r = base
            · subst hrb
              rw [getD_updateAt_self _ _ _ (by rw [length_updateAt]; exact hbrows),
                getD_updateAt_self _ _ _ hbrows]
              exact hstep
            · rw [getD_updateAt_ne _ _ _ hrb, getD_updateAt_ne _ _ _ hrb]
              exact hstep
        · intro r hr L
          simp only [hEDa]
          rw [getD_addRange]
          have hrpts : r < st.pts.length := by rw [hinv.plen]; exact hr
          by_cases hrange : base + 1 ≤ r ∧ r < j
          · rw [if_pos ⟨hrange.1, hrange.2, hrpts⟩, mem_listInsert,
              hinv.inv_pts r hr L]
            constructor
            · rintro (⟨i, q, j'', h1, h2, h3, h4⟩ | hLp)
              · exact ⟨i, q, j'', Or.inl h1, h2, h3, h4⟩
              · exact ⟨base, p, j, Or.inr ⟨rfl, rfl, rfl⟩, by omega, hrange.2, hLp.symm⟩
            · rintro ⟨i, q, j'', h1 | ⟨he, hq, hj''⟩, h2, h3, h4⟩
              · exact Or.inl ⟨i, q, j'', h1, h2, h3, h4⟩
              · subst hq
                exact Or.inr h4.symm
          · rw [if_neg (fun hca => hrange ⟨hca.1, hca.2.1⟩), hinv.inv_pts r hr L]
            constructor
            · rintro ⟨i, q, j'', h1, h2, h3, h4⟩
              exact ⟨i, q, j'', Or.inl h1, h2, h3, h4⟩
            · rintro ⟨i, q, j'', h1 | ⟨he, hq, hj''⟩, h2, h3, h4⟩
              · exact ⟨i, q, j'', h1, h2, h3, h4⟩
              · subst he; subst hj''
                exact absurd ⟨by omega, h3⟩ hrange


/-! ## Assembling the loop invariant over the whole pass -/

theorem fwdEdge_lt_length {commits : List GitCommit} {i : Nat} {p : String} {j : Nat}
    (h : FwdEdge commits i p j) : i < commits.length := by
  by_contra hge
  have hdef : cAt commits i = default := by
    rw [cAt, List.getD_eq_default]
    omega
  have := h.1
  rw [hdef] at this
  simp [default] at this

theorem fwdEdge_target_lt_length {commits : List GitCommit} {i : Nat} {p : String} {j : Nat}
    (h : FwdEdge commits i p j) : j < commits.length :=
  (commitIndex_lookup_sound h.2.1).1

theorem edgeDone_ge {commits : List GitCommit} {k : Nat} (hk : commits.length ≤ k)
    (i : Nat) (p : String) (j : Nat) :
    EdgeDone commits k [] i p j ↔ EdgeDone commits commits.length [] i p j := by
  unfold EdgeDone
  constructor
  · rintro ⟨hf, _ | ⟨_, hm⟩⟩
    · exact ⟨hf, Or.inl (fwdEdge_lt_length hf)⟩
    · simp at hm
  · rintro ⟨hf, _ | ⟨_, hm⟩⟩
    · exact ⟨hf, Or.inl (by omega)⟩
    · simp at hm

theorem processParents_inv {commits : List GitCommit} {laneMap : JMap} {base : Nat}
    (hbase : base < commits.length) :
    ∀ (ps dp : List String) (st : RowState),
      (cAt commits base).parents = dp ++ ps →
      LoopInv commits laneMap (base + 1) base dp st →
      LoopInv commits laneMap (base + 1) base (dp ++ ps)
        (ps.foldl (processParent (commitIndexOf commits) laneMap base
          (laneMap.getD ((cAt commits base).hash))) st) := by
  intro ps
  induction ps with
  | nil =>
    intro dp st hsplit hinv
    simpa using hinv
  | cons q ps ih =>
    intro dp st hsplit hinv
    have hq_mem : q ∈ (cAt commits base).parents := by
      rw [hsplit]
      simp
    have hstep := processParent_inv hbase hq_mem hinv
    have hsplit' : (cAt commits base).parents = (dp ++ [q]) ++ ps := by
      rw [hsplit]
      simp
    have hres := ih (dp ++ [q]) _ hsplit' hstep
    rw [List.foldl_cons]
    simpa using hres

theorem rowStep_inv {commits : List GitCommit} {laneMap : JMap} {k : Nat} {st : RowState}
    (hk : k < commits.length)
    (hinv : LoopInv commits laneMap k k [] st) :
    LoopInv commits laneMap (k + 1) (k + 1) []
      (rowStep (commitIndexOf commits) laneMap (childMapOf commits) st (k, cAt commits k)) := by
  have hkrows : k < st.rows.length := by rw [hinv.rlen]; exact hk
  have hst1 : LoopInv commits laneMap (k + 1) k []
      (⟨updateAt st.rows k (fun r => { r with hasIncoming := ((childLookup (childMapOf commits) ((cAt commits k).hash)).any (fun j => decide (j < k))) }), st.pts⟩ : RowState) := by
    refine ⟨by rw [length_updateAt]; exact hinv.rlen, hinv.plen, ?_, ?_, ?_, ?_, hinv.inv_pts⟩
    · intro r hr
      by_cases hrk : r = k
      · subst hrk
        rw [getD_updateAt_self _ _ _ hkrows, if_pos (by omega)]
      · rw [getD_updateAt_ne _ _ _ hrk]
        have hold := hinv.inv_in r hr
        by_cases hcase : r < k
        · rw [if_pos hcase] at hold
          rw [hold, if_pos (by omega)]
        · rw [if_neg hcase] at hold
          rw [hold, if_neg (by omega)]
    · intro r hr
      by_cases hrk : r = k
      · subst hrk
        rw [getD_updateAt_self _ _ _ hkrows]
        change ((st.rows.getD r default).hasOutgoing = true ↔ _)
        exact hinv.inv_out r hr
      · rw [getD_updateAt_ne _ _ _ hrk]
        exact hinv.inv_out r hr
    · intro r hr L
      by_cases hrk : r = k
      · subst hrk
        rw [getD_updateAt_self _ _ _ hkrows]
        change (L ∈ (st.rows.getD r default).mergeOutgoingToLanes ↔ _)
        exact hinv.inv_mout r hr L
      · rw [getD_updateAt_ne _ _ _ hrk]
        exact hinv.inv_mout r hr L
    · intro r hr L
      by_cases hrk : r = k
      · subst hrk
        rw [getD_updateAt_self _ _ _ hkrows]
        change (L ∈ (st.rows.getD r default).mergeIncomingFromLanes ↔ _)
        exact hinv.inv_min r hr L
      · rw [getD_updateAt_ne _ _ _ hrk]
        exact hinv.inv_min r hr L
  have hsplit : (cAt commits k).parents = [] ++ (cAt commits k).parents := rfl
  have hfold := processParents_inv hk ((cAt commits k).parents) [] _ hsplit hst1
  rw [List.nil_append] at hfold
  refine ⟨hfold.rlen, hfold.plen, hfold.inv_in, ?_, ?_, ?_, ?_⟩
  · intro r hr
    simp only [edgeDone_nil_succ]
    exact hfold.inv_out r hr
  · intro r hr L
    simp only [edgeDone_nil_succ]
    exact hfold.inv_mout r hr L
  · intro r hr L
    simp only [edgeDone_nil_succ]
    exact hfold.inv_min r hr L
  · intro r hr L
    simp only [edgeDone_nil_succ]
    exact hfold.inv_pts r hr L

theorem mainLoop_inv (commits : List GitCommit) (laneMap : JMap) :
    ∀ (l : List GitCommit) (k : Nat) (st : RowState),
      commits.drop k = l →
      LoopInv commits laneMap k k [] st →
      LoopInv commits laneMap commits.length commits.length []
        ((l.enumFrom k).foldl (rowStep (commitIndexOf commits) laneMap (childMapOf commits)) st) := by
  intro l
  induction l with
  | nil =>
    intro k st hdrop hinv
    have hk : commits.length ≤ k := List.drop_eq_nil_iff.mp hdrop
    simp only [List.enumFrom_nil, List.foldl_nil]
    refine ⟨hinv.rlen, hinv.plen, ?_, ?_, ?_, ?_, ?_⟩
    · intro r hr
      have := hinv.inv_in r hr
      rw [if_pos (by omega)] at this
      rw [this, if_pos hr]
    · intro r hr
      simp only [← edgeDone_ge hk]
      exact hinv.inv_out r hr
    · intro r hr L
      simp only [← edgeDone_ge hk]
      exact hinv.inv_mout r hr L
    · intro r hr L
      simp only [← edgeDone_ge hk]
      exact hinv.inv_min r hr L
    · intro r hr L
      simp only [← edgeDone_ge hk]
      exact hinv.inv_pts r hr L
  | cons c restl ih =>
    intro k st hdrop hinv
    obtain ⟨hklen, hkc, hdrop'⟩ := drop_head_facts hdrop
    rw [List.enumFrom_cons, List.foldl_cons]
    have hstep := rowStep_inv hklen hinv
    rw [hkc] at hstep
    exact ih (k + 1) _ hdrop' hstep

/-! ## Closed characterisations of the row data -/

theorem length_finaliseRows (laneMap : JMap) (commits : List GitCommit) (st : RowState)
    (hr1 : st.rows.length = commits.length) (hr2 : st.pts.length = commits.length) :
    (finaliseRows laneMap commits st).length = commits.length := by
  rw [finaliseRows, List.length_map, List.length_zip, List.length_zip, hr1, hr2]
  omega

theorem getD_finaliseRows (laneMap : JMap) (commits : List GitCommit) (st : RowState)
    (hr1 : st.rows.length = commits.length) (hr2 : st.pts.length = commits.length)
    {r : Nat} (hr : r < commits.length) :
    (finaliseRows laneMap commits st).getD r default =
      { (st.rows.getD r default) with passthroughLanes := ((st.pts.getD r []).filter (fun l => l ≠ laneMap.getD ((cAt commits r).hash))) } := by
  have hlen : r < (finaliseRows laneMap commits st).length := by
    rw [length_finaliseRows laneMap commits st hr1 hr2]
    exact hr
  rw [List.getD_eq_getElem _ _ hlen]
  simp only [finaliseRows] at hlen ⊢
  rw [List.getElem_map]
  have hzl : r < (commits.zip (st.rows.zip st.pts)).length := by
    simpa [finaliseRows] using hlen
  have hrr : r < st.rows.length := by omega
  have hrp : r < st.pts.length := by omega
  have hz : (commits.zip (st.rows.zip st.pts))[r] =
      (commits[r], (st.rows[r], st.pts[r])) := by
    simp only [List.zip_eq_zipWith]
    rw [List.getElem_zipWith, List.getElem_zipWith]
  rw [hz]
  have hc : cAt commits r = commits[r] := List.getD_eq_getElem commits default hr
  have hrow : st.rows.getD r default = st.rows[r] :=
    List.getD_eq_getElem st.rows default hrr
  have hpt : st.pts.getD r [] = st.pts[r] :=
    List.getD_eq_getElem st.pts [] hrp
  rw [hc, hrow, hpt]

/-- The fully processed loop state of `calculateRowGraphData`. -/
def finalRowState (commits : List GitCommit) (laneMap : JMap) : RowState :=
  (commits.enum.foldl (rowStep (commitIndexOf commits) laneMap (childMapOf commits))
    ⟨commits.map (fun _ => default), commits.map (fun _ => [])⟩)

theorem finalRowState_inv (commits : List GitCommit) (laneMap : JMap) :
    LoopInv commits laneMap commits.length commits.length [] (finalRowState commits laneMap) :=
  mainLoop_inv commits laneMap commits 0 _ rfl (loopInv_init commits laneMap)

theorem calculateRowGraphData_eq (commits : List GitCommit) (laneMap : JMap)
    (hne : commits.length ≠ 0) :
    calculateRowGraphData commits laneMap =
      finaliseRows laneMap commits (finalRowState commits laneMap) := by
  rw [calculateRowGraphData, if_neg hne]
  rfl

/-- `EdgeDone` over the whole pass is just `FwdEdge`. -/
theorem edgeDone_length_iff (commits : List GitCommit) (i : Nat) (p : String) (j : Nat) :
    EdgeDone commits commits.length [] i p j ↔ FwdEdge commits i p j := by
  unfold EdgeDone
  constructor
  · rintro ⟨hf, _⟩
    exact hf
  · intro hf
    exact ⟨hf, Or.inl (fwdEdge_lt_length hf)⟩

theorem rowAt_default_of_ge {commits : List GitCommit} {laneMap : JMap} {r : Nat}
    (hr : commits.length ≤ r) : rowAt commits laneMap r = default := by
  rw [rowAt]
  by_cases hz : commits.length = 0
  · rw [calculateRowGraphData, if_pos hz]
    rfl
  · rw [calculateRowGraphData_eq commits laneMap hz, List.getD_eq_default]
    rw [length_finaliseRows laneMap commits _ (finalRowState_inv commits laneMap).rlen
      (finalRowState_inv commits laneMap).plen]
    exact hr

theorem rowAt_eq_of_lt {commits : List GitCommit} {laneMap : JMap} {r : Nat}
    (hr : r < commits.length) :
    rowAt commits laneMap r =
      { ((finalRowState commits laneMap).rows.getD r default) with passthroughLanes := (((finalRowState commits laneMap).pts.getD r []).filter (fun l => l ≠ laneMap.getD ((cAt commits r).hash))) } := by
  have hz : commits.length ≠ 0 := by omega
  rw [rowAt, calculateRowGraphData_eq commits laneMap hz]
  exact getD_finaliseRows laneMap commits _ (finalRowState_inv commits laneMap).rlen
    (finalRowState_inv commits laneMap).plen hr

/-- Characterisation: a row reports an outgoing line exactly when it has a
known parent strictly below it. -/
theorem rowAt_hasOutgoing_iff (commits : List GitCommit) (laneMap : JMap) (r : Nat) :
    ((rowAt commits laneMap r).hasOutgoing = true ↔ ∃ p j, FwdEdge commits r p j) := by
  by_cases hr : r < commits.length
  · rw [rowAt_eq_of_lt hr]
    have := (finalRowState_inv commits laneMap).inv_out r hr
    simp only [edgeDone_length_iff] at this
    exact this
  · rw [rowAt_default_of_ge (by omega)]
    constructor
    · intro h
      simp [default] at h
    · rintro ⟨p, j, hf⟩
      exact absurd (fwdEdge_lt_length hf) hr

/-- Characterisation of the recorded outgoing merge curves. -/
theorem rowAt_mergeOut_iff (commits : List GitCommit) (laneMap : JMap) (r : Nat) (L : Nat) :
    (L ∈ (rowAt commits laneMap r).mergeOutgoingToLanes ↔
      ∃ p j, FwdEdge commits r p j ∧ laneMap.getD p = L ∧
        L ≠ laneMap.getD ((cAt commits r).hash)) := by
  by_cases hr : r < commits.length
  · rw [rowAt_eq_of_lt hr]
    have := (finalRowState_inv commits laneMap).inv_mout r hr L
    simp only [edgeDone_length_iff] at this
    exact this
  · rw [rowAt_default_of_ge (by omega)]
    constructor
    · intro h
      simp [default] at h
    · rintro ⟨p, j, hf, _⟩
      exact absurd (fwdEdge_lt_length hf) hr

/-- Characterisation of the recorded incoming merge curves. -/
theorem rowAt_mergeIn_iff (commits : List GitCommit) (laneMap : JMap) (r : Nat) (L : Nat) :
    (L ∈ (rowAt commits laneMap r).mergeIncomingFromLanes ↔
      ∃ i p, FwdEdge commits i p r ∧ laneMap.getD ((cAt commits i).hash) = L ∧
        laneMap.getD p ≠ L) := by
  by_cases hr : r < commits.length
  · rw [rowAt_eq_of_lt hr]
    have := (finalRowState_inv commits laneMap).inv_min r hr L
    simp only [edgeDone_length_iff] at this
    exact this
  · rw [rowAt_default_of_ge (by omega)]
    constructor
    · intro h
      simp [default] at h
    · rintro ⟨i, p, hf, _⟩
      exact absurd (fwdEdge_target_lt_length hf) hr

/-- Characterisation of the passthrough lanes reported by a row. -/
theorem rowAt_passthrough_iff (commits : List GitCommit) (laneMap : JMap) (r : Nat) (L : Nat) :
    (L ∈ (rowAt commits laneMap r).passthroughLanes ↔
      (∃ i p j, FwdEdge commits i p j ∧ i < r ∧ r < j ∧ laneMap.getD p = L) ∧
        L ≠ laneMap.getD ((cAt commits r).hash)) := by
  by_cases hr : r < commits.length
  · have hproj : (rowAt commits laneMap r).passthroughLanes =
        ((finalRowState commits laneMap).pts.getD r []).filter
          (fun l => l ≠ laneMap.getD ((cAt commits r).hash)) := by
      rw [rowAt_eq_of_lt hr]
    rw [hproj, List.mem_filter]
    have hch := (finalRowState_inv commits laneMap).inv_pts r hr L
    simp only [edgeDone_length_iff] at hch
    rw [hch]
    simp
  · rw [rowAt_default_of_ge (by omega)]
    constructor
    · intro h
      simp [default] at h
    · rintro ⟨⟨i, p, j, hf, hir, hrj, _⟩, _⟩
      have := fwdEdge_target_lt_length hf
      omega


/-! ## Remaining helper lemmas for the claims -/

theorem foldl_laneStep_commitLanes_isSome (l : List GitCommit) :
    ∀ (st : LaneState) (h : String), ((st.commitLanes.lookup h).isSome) →
      (((l.foldl laneStep st).commitLanes).lookup h).isSome := by
  induction l with
  | nil => intro st h hv; exact hv
  | cons c l ih =>
    intro st h hv
    rw [List.foldl_cons]
    refine ih _ h ?_
    rw [laneStep_commitLanes, JMap.lookup_set]
    by_cases hch : c.hash = h
    · rw [if_pos hch]
      rfl
    · rw [if_neg hch]
      exact hv

theorem foldl_laneStep_commitLanes_none (l : List GitCommit) :
    ∀ (st : LaneState) (u : String), (∀ c ∈ l, c.hash ≠ u) →
      st.commitLanes.lookup u = none →
      ((l.foldl laneStep st).commitLanes).lookup u = none := by
  induction l with
  | nil => intro st u _ hv; exact hv
  | cons c l ih =>
    intro st u hunk hv
    rw [List.foldl_cons]
    refine ih _ u (fun c' hc' => hunk c' (List.mem_cons_of_mem c hc')) ?_
    rw [laneStep_commitLanes, JMap.lookup_set,
      if_neg (hunk c (List.mem_cons_self c l))]
    exact hv

/-- A lane reserved for hash `h` before the rest of the pass runs becomes the
final lane of the commit carrying `h` (first-writer-wins, globally). -/
theorem final_lane_of_reservation {commits pre rest : List GitCommit}
    (hcommits : commits = pre ++ rest)
    (hnd : (commits.map GitCommit.hash).Nodup) {h : String} {v : Nat}
    (hres : (stateAt commits pre.length).reservedLanes.lookup h = some v)
    {c : GitCommit} (hc : c ∈ rest) (hch : c.hash = h) :
    (calculateLanes commits).lookup h = some v := by
  obtain ⟨mid, post2, rfl⟩ := List.append_of_mem hc
  have hsplit : commits = (pre ++ mid) ++ c :: post2 := by
    rw [hcommits, List.append_assoc]
  have hdropj : commits.drop (pre ++ mid).length = c :: post2 := by
    rw [hsplit]
    exact List.drop_left (pre ++ mid) (c :: post2)
  obtain ⟨hjlen, hjc, _⟩ := drop_head_facts hdropj
  have hch' : (cAt commits ((pre ++ mid).length)).hash = h := by rw [hjc, hch]
  have hple : pre.length ≤ (pre ++ mid).length := by
    rw [List.length_append]
    omega
  have hresj : (stateAt commits ((pre ++ mid).length)).reservedLanes.lookup
      ((cAt commits ((pre ++ mid).length)).hash) = some v := by
    refine reserved_persist hnd hjlen ?_ _ hple (le_refl _)
    rw [hch']
    exact hres
  have hassigned : assignedLaneOf (stateAt commits ((pre ++ mid).length))
      (cAt commits ((pre ++ mid).length)) = v :=
    assignedLaneOf_of_lookup hresj
  rw [← hch']
  rw [calculateLanes_lookup_eq_assigned hnd hjlen, hassigned]

theorem take_left_eq (pre rest : List GitCommit) :
    (pre ++ rest).take pre.length = pre := by
  exact List.take_left pre rest

/-- The pass state at the boundary of a prefix is the fold over that prefix. -/
theorem stateAt_append (pre rest : List GitCommit) :
    stateAt (pre ++ rest) pre.length = pre.foldl laneStep laneInit := by
  rw [stateAt, take_left_eq]


/-! ## The claims -/

/-- C1: on the four-commit scenario (newest first) `calculateLanes` returns
exactly `{c3 ↦ 0, c2 ↦ 0, c1 ↦ 0, b1 ↦ 1}`, and `calculateRowGraphData`
gives row 1 (`c2`) `mergeOutgoingToLanes = [1]`, row 3 (`b1`)
`mergeIncomingFromLanes = [0]`, and row 2 (`c1`) `hasIncoming = true` with
`hasOutgoing = false`. -/
theorem claim_C1_concrete_scenario :
    calculateLanes scenarioCommits = [("c3", 0), ("c2", 0), ("c1", 0), ("b1", 1)] ∧
    (rowAt scenarioCommits (calculateLanes scenarioCommits) 1).mergeOutgoingToLanes = [1] ∧
    (rowAt scenarioCommits (calculateLanes scenarioCommits) 3).mergeIncomingFromLanes = [0] ∧
    (rowAt scenarioCommits (calculateLanes scenarioCommits) 2).hasIncoming = true ∧
    (rowAt scenarioCommits (calculateLanes scenarioCommits) 2).hasOutgoing = false := by
  decide

/-- Eight commits (newest first) with two merges: lane 0 is freed after `m1`'s
branch terminates and is reallocated to `m2`'s second parent `p2`, so two
disjoint child–parent edges both travel on lane 0. -/
def cexCommits : List GitCommit :=
  [ { hash := "m1", parents := ["f1", "p1"] },
    { hash := "z", parents := [] },
    { hash := "f1", parents := [] },
    { hash := "p1", parents := [] },
    { hash := "m2", parents := ["f2", "p2"] },
    { hash := "w", parents := [] },
    { hash := "f2", parents := [] },
    { hash := "p2", parents := [] } ]

/-- C2 counterexample: on the valid reverse-topological list `cexCommits`,
commit `m2` at row `i = 4` has parent `p2` at row `j = 7 > i + 1` in a
different lane, yet row `1` — outside the interval `[5, 6]` — also reports
that parent's lane (lane 0) in its `passthroughLanes`, because the earlier
edge `m1 → f1` also travels on lane 0.  This refutes the claim's "no row
outside `[i+1, j-1]` has that parent's lane in its passthroughLanes". -/
theorem claim_C2_counterexample :
    validTopo cexCommits ∧ (cexCommits.map GitCommit.hash).Nodup ∧
    (cAt cexCommits 7).hash ∈ (cAt cexCommits 4).parents ∧
    4 + 1 < 7 ∧
    (calculateLanes cexCommits).getD ((cAt cexCommits 7).hash) ≠
      (calculateLanes cexCommits).getD ((cAt cexCommits 4).hash) ∧
    (1 : Nat) < 4 + 1 ∧
    (calculateLanes cexCommits).getD ((cAt cexCommits 7).hash) ∈
      (rowAt cexCommits (calculateLanes cexCommits) 1).passthroughLanes := by
  decide

/-- C2 (amended): (a) if the commit at row `i` has a parent at row `j` (lanes
from `calculateLanes`, hashes duplicate-free) and the parent's lane differs
from row `i`'s, every row strictly between `i` and `j` reports the parent's
lane in its `passthroughLanes`; (b) conversely, a row `r` reports a lane `L`
only when `L` differs from row `r`'s own lane and some child–parent edge
spans row `r` on lane `L` — rows outside `[i+1, j-1]` may still report the
parent's lane, but only because of some other spanning edge. -/
theorem claim_C2_passthrough_characterised :
    (∀ (commits : List GitCommit) (i r j : Nat),
      (commits.map GitCommit.hash).Nodup →
      i < r → r < j → j < commits.length →
      (cAt commits j).hash ∈ (cAt commits i).parents →
      (calculateLanes commits).getD ((cAt commits j).hash) ≠
        (calculateLanes commits).getD ((cAt commits i).hash) →
      (calculateLanes commits).getD ((cAt commits j).hash) ∈
        (rowAt commits (calculateLanes commits) r).passthroughLanes) ∧
    (∀ (commits : List GitCommit) (laneMap : JMap) (r L : Nat),
      L ∈ (rowAt commits laneMap r).passthroughLanes →
      L ≠ laneMap.getD ((cAt commits r).hash) ∧
      ∃ i p j, p ∈ (cAt commits i).parents ∧
        (commitIndexOf commits).lookup p = some j ∧ i < r ∧ r < j ∧
        laneMap.getD p = L) := by
  constructor
  · intro commits i r j hnd hir hrj hj hp _
    refine (rowAt_passthrough_iff commits (calculateLanes commits) r _).mpr ⟨?_, ?_⟩
    · refine ⟨i, (cAt commits j).hash, j, ⟨hp, commitIndex_lookup_of_nodup hnd hj, by omega⟩,
        hir, hrj, rfl⟩
    · exact (lane_between_ne hnd hir hrj hj hp).symm
  · intro commits laneMap r L hmem
    obtain ⟨⟨i, p, j, hf, hir, hrj, hL⟩, hne⟩ :=
      (rowAt_passthrough_iff commits laneMap r L).mp hmem
    exact ⟨hne, i, p, j, hf.1, hf.2.1, hir, hrj, hL⟩

/-- Witness for C2 (amended): on the scenario list, the edge from `c2`
(row 1, lane 0) to `b1` (row 3, lane 1) makes row 2 report lane 1. -/
theorem claim_C2_witness :
    (calculateLanes scenarioCommits).getD ((cAt scenarioCommits 3).hash) ∈
      (rowAt scenarioCommits (calculateLanes scenarioCommits) 2).passthroughLanes :=
  claim_C2_passthrough_characterised.1 scenarioCommits 1 2 3 (by decide) (by decide)
    (by decide) (by decide) (by decide) (by decide)

/-- C3: `calculateLanes` is total — every commit of the input list gets a lane
in the returned map, and (the lanes being modelled by `Nat`, exactly because
the code only ever produces counter values, lowest-free indices and maxima
of those) every lane value is a non-negative integer. -/
theorem claim_C3_total_coverage (commits : List GitCommit) (c : GitCommit)
    (hc : c ∈ commits) :
    ((calculateLanes commits).lookup c.hash).isSome = true ∧
    ∀ v ∈ (calculateLanes commits).values, 0 ≤ v := by
  constructor
  · obtain ⟨l1, l2, rfl⟩ := List.append_of_mem hc
    rw [calculateLanes, List.foldl_append, List.foldl_cons]
    refine foldl_laneStep_commitLanes_isSome l2 _ c.hash ?_
    rw [laneStep_commitLanes, JMap.lookup_set, if_pos rfl]
    rfl
  · intro v _
    exact Nat.zero_le v

/-- Witness for C3 at the scenario list and its head commit. -/
theorem claim_C3_witness :
    ((calculateLanes scenarioCommits).lookup "c3").isSome = true :=
  (claim_C3_total_coverage scenarioCommits { hash := "c3", parents := ["c2"] }
    (by decide)).1


theorem getD_pair_mem_zip_tail (idxs : List Nat) :
    ∀ k : Nat, k + 1 < idxs.length →
      (idxs.getD k 0, idxs.getD (k + 1) 0) ∈ idxs.zip idxs.tail := by
  induction idxs with
  | nil => intro k hk; simp at hk
  | cons a rest ih =>
    intro k hk
    cases rest with
    | nil => simp at hk
    | cons b rest' =>
      rw [List.tail_cons, List.zip_cons_cons]
      cases k with
      | zero =>
        exact List.mem_cons_self _ _
      | succ k' =>
        have hk' : k' + 1 < (b :: rest').length := by
          simpa using Nat.lt_of_succ_lt_succ hk
        have := ih k' hk'
        rw [List.tail_cons] at this
        simpa using List.mem_cons_of_mem (a, b) this

/-- C5: merge-curve symmetry.  For any commit list and covering lane map,
whenever row `i` records an outgoing curve to lane `L2`, `L2` differs from
row `i`'s own lane `L1`, the curve belongs to a parent `p` at a later row
`j`, and that row records the matching incoming curve from `L1`. -/
theorem claim_C5_merge_curve_symmetry (commits : List GitCommit) (laneMap : JMap)
    (_hcov : ∀ c ∈ commits, (laneMap.lookup c.hash).isSome) (i L2 : Nat)
    (hmem : L2 ∈ (rowAt commits laneMap i).mergeOutgoingToLanes) :
    L2 ≠ laneMap.getD ((cAt commits i).hash) ∧
    ∃ p j, p ∈ (cAt commits i).parents ∧
      (commitIndexOf commits).lookup p = some j ∧ i < j ∧ laneMap.getD p = L2 ∧
      laneMap.getD ((cAt commits i).hash) ∈
        (rowAt commits laneMap j).mergeIncomingFromLanes := by
  obtain ⟨p, j, hf, hL, hne⟩ := (rowAt_mergeOut_iff commits laneMap i L2).mp hmem
  refine ⟨hne, p, j, hf.1, hf.2.1, hf.2.2, hL, ?_⟩
  refine (rowAt_mergeIn_iff commits laneMap j _).mpr ⟨i, p, hf, rfl, ?_⟩
  rw [hL]
  exact fun hc => hne (hc ▸ rfl)

/-- Witness for C5: on the scenario, row 1 (`c2`, lane 0) records an outgoing
curve to lane 1, matched at `b1`'s row. -/
theorem claim_C5_witness :
    (1 : Nat) ≠ (calculateLanes scenarioCommits).getD ((cAt scenarioCommits 1).hash) ∧
    ∃ p j, p ∈ (cAt scenarioCommits 1).parents ∧
      (commitIndexOf scenarioCommits).lookup p = some j ∧ 1 < j ∧
      (calculateLanes scenarioCommits).getD p = 1 ∧
      (calculateLanes scenarioCommits).getD ((cAt scenarioCommits 1).hash) ∈
        (rowAt scenarioCommits (calculateLanes scenarioCommits) j).mergeIncomingFromLanes :=
  claim_C5_merge_curve_symmetry scenarioCommits (calculateLanes scenarioCommits)
    (by decide) 1 1 (by decide)

/-- C6: the consecutiveness predicate (i) accepts every single-row selection,
(ii) accepts a three-row selection forming a strict single-parent chain, and
(iii) rejects any selection whose non-final members include a commit with two
or more parents. -/
theorem claim_C6_consecutiveness :
    (∀ (commits : List GitCommit) (i : Nat),
      areCommitsConsecutive commits [i] = true) ∧
    (∀ (commits : List GitCommit) (i0 i1 i2 : Nat),
      (cAt commits i0).parents = [(cAt commits i1).hash] →
      (cAt commits i1).parents = [(cAt commits i2).hash] →
      areCommitsConsecutive commits [i0, i1, i2] = true) ∧
    (∀ (commits : List GitCommit) (idxs : List Nat) (k : Nat),
      k + 1 < idxs.length →
      2 ≤ (cAt commits (idxs.getD k 0)).parents.length →
      areCommitsConsecutive commits idxs = false) := by
  refine ⟨?_, ?_, ?_⟩
  · intro commits i
    rfl
  · intro commits i0 i1 i2 h0 h1
    have hp0 : consecutivePair commits i0 i1 = true := by
      simp only [consecutivePair]
      rw [show commits.getD i0 default = cAt commits i0 from rfl, h0]
      simp [cAt]
    have hp1 : consecutivePair commits i1 i2 = true := by
      simp only [consecutivePair]
      rw [show commits.getD i1 default = cAt commits i1 from rfl, h1]
      simp [cAt]
    simp [areCommitsConsecutive, hp0, hp1]
  · intro commits idxs k hk hmerge
    cases hres : areCommitsConsecutive commits idxs with
    | false => rfl
    | true =>
      exfalso
      rw [areCommitsConsecutive, List.all_eq_true] at hres
      have hpair := hres _ (getD_pair_mem_zip_tail idxs k hk)
      simp only [consecutivePair, Bool.and_eq_true, beq_iff_eq] at hpair
      have : (cAt commits (idxs.getD k 0)).parents.length = 1 := hpair.1
      omega

/-- Witness for C6: the chain and the merge rejection, on concrete lists. -/
theorem claim_C6_witness :
    areCommitsConsecutive
      [ { hash := "a", parents := ["b"] },
        { hash := "b", parents := ["c"] },
        { hash := "c", parents := [] } ] [0, 1, 2] = true ∧
    areCommitsConsecutive scenarioCommits [1, 2] = false :=
  ⟨claim_C6_consecutiveness.2.1
      [ { hash := "a", parents := ["b"] },
        { hash := "b", parents := ["c"] },
        { hash := "c", parents := [] } ] 0 1 2 (by decide) (by decide),
    claim_C6_consecutiveness.2.2 scenarioCommits [1, 2] 0 (by decide) (by decide)⟩

/-- C7: unknown parent hashes are harmless.  A hash carried by no commit of
the list is never assigned a lane, and every rendering effect a row reports
(`hasOutgoing`, outgoing curves, passthroughs) is caused by a parent that is
a known commit hash — hence never by the unknown one.  (All embedded
functions are total, so no error can be raised.) -/
theorem claim_C7_unknown_parents (commits : List GitCommit) (laneMap : JMap)
    (u : String) (hunk : ∀ c ∈ commits, c.hash ≠ u) :
    (calculateLanes commits).lookup u = none ∧
    (∀ r, (rowAt commits laneMap r).hasOutgoing = true →
      ∃ p j, p ∈ (cAt commits r).parents ∧ p ≠ u ∧
        (commitIndexOf commits).lookup p = some j ∧ r < j) ∧
    (∀ r L, L ∈ (rowAt commits laneMap r).mergeOutgoingToLanes →
      ∃ p j, p ∈ (cAt commits r).parents ∧ p ≠ u ∧
        (commitIndexOf commits).lookup p = some j ∧ r < j ∧ laneMap.getD p = L) ∧
    (∀ r L, L ∈ (rowAt commits laneMap r).passthroughLanes →
      ∃ i p j, p ∈ (cAt commits i).parents ∧ p ≠ u ∧
        (commitIndexOf commits).lookup p = some j ∧ i < r ∧ r < j ∧
        laneMap.getD p = L) := by
  have hknown : ∀ p j, (commitIndexOf commits).lookup p = some j → p ≠ u := by
    intro p j hpj
    obtain ⟨hjlen, hjhash⟩ := commitIndex_lookup_sound hpj
    have hmem : cAt commits j ∈ commits := by
      rw [cAt, List.getD_eq_getElem commits default hjlen]
      exact commits.getElem_mem hjlen
    exact hjhash ▸ hunk _ hmem
  refine ⟨?_, ?_, ?_, ?_⟩
  · rw [calculateLanes]
    exact foldl_laneStep_commitLanes_none commits laneInit u hunk rfl
  · intro r hout
    obtain ⟨p, j, hf⟩ := (rowAt_hasOutgoing_iff commits laneMap r).mp hout
    exact ⟨p, j, hf.1, hknown p j hf.2.1, hf.2.1, hf.2.2⟩
  · intro r L hmem
    obtain ⟨p, j, hf, hL, _⟩ := (rowAt_mergeOut_iff commits laneMap r L).mp hmem
    exact ⟨p, j, hf.1, hknown p j hf.2.1, hf.2.1, hf.2.2, hL⟩
  · intro r L hmem
    obtain ⟨⟨i, p, j, hf, hir, hrj, hL⟩, _⟩ :=
      (rowAt_passthrough_iff commits laneMap r L).mp hmem
    exact ⟨i, p, j, hf.1, hknown p j hf.2.1, hf.2.1, hir, hrj, hL⟩

/-- Witness for C7 at the scenario list and an absent hash. -/
theorem claim_C7_witness :
    (calculateLanes scenarioCommits).lookup "zzz" = none :=
  (claim_C7_unknown_parents scenarioCommits (calculateLanes scenarioCommits) "zzz"
    (by decide)).1

/-- C9: a row never lists its own lane — neither among its passthrough lanes
(the finalisation pass filters it) nor among its outgoing merge curves (the
`parentLane !== lane` guard).  This holds for every commit list and lane
map. -/
theorem claim_C9_no_self_lane (commits : List GitCommit) (laneMap : JMap) (r : Nat) :
    laneMap.getD ((cAt commits r).hash) ∉ (rowAt commits laneMap r).passthroughLanes ∧
    laneMap.getD ((cAt commits r).hash) ∉ (rowAt commits laneMap r).mergeOutgoingToLanes := by
  constructor
  · intro hmem
    exact ((rowAt_passthrough_iff commits laneMap r _).mp hmem).2 rfl
  · intro hmem
    obtain ⟨p, j, _, _, hne⟩ := (rowAt_mergeOut_iff commits laneMap r _).mp hmem
    exact hne rfl

/-- C10: at every point of the forward pass of `calculateLanes` (after any
number `k` of visited commits), the pending-reservation map is injective on
lane values: its value list is duplicate-free. -/
theorem claim_C10_reservations_injective (commits : List GitCommit) (k : Nat) :
    ((stateAt commits k).reservedLanes.values).Nodup :=
  (goodState_stateAt commits k).2.1


/-! ## Merge-parent allocation (claims C4 and C8) -/

/-- The reservation map after the visited commit consumes its own
reservation (the `reservedLanes.delete(commit.hash)` of step 1). -/
def consumeRes (st : LaneState) (c : GitCommit) : JMap :=
  if st.reservedLanes.has c.hash then st.reservedLanes.delete c.hash else st.reservedLanes

/-- The `nextLane` counter after the visited commit takes its lane. -/
def consumeNext (st : LaneState) (c : GitCommit) : Nat :=
  if st.reservedLanes.has c.hash then st.nextLane else st.nextLane + 1

theorem lookup_none_delete (m : JMap) (k h : String) (hm : m.lookup h = none) :
    (m.delete k).lookup h = none := by
  apply JMap.lookup_eq_none_of_not_mem_keys
  intro hmem
  have hsub := (JMap.delete_sublist m k).map Prod.fst
  have hk : h ∈ m.keys := hsub.mem hmem
  have hcontra := (JMap.lookup_isSome_iff_keys m h).mpr hk
  rw [hm] at hcontra
  simp at hcontra

theorem consumeRes_lookup_none {st : LaneState} {c : GitCommit} {h : String}
    (hm : st.reservedLanes.lookup h = none) : (consumeRes st c).lookup h = none := by
  rw [consumeRes]
  by_cases hres : st.reservedLanes.has c.hash
  · rw [if_pos hres]
    exact lookup_none_delete _ _ _ hm
  · rw [if_neg hres]
    exact hm

/-- Explicit shape of a `laneStep` on a two-parent merge commit whose parents
hold no reservations. -/
theorem laneStep_two_parents (st : LaneState) (c : GitCommit) (P1 P2 : String)
    (hpar : c.parents = [P1, P2])
    (hP1 : (consumeRes st c).lookup P1 = none)
    (hP2 : (consumeRes st c).lookup P2 = none) (hP12 : P1 ≠ P2) :
    laneStep st c =
      ⟨st.commitLanes.set c.hash (assignedLaneOf st c),
        ((consumeRes st c).set P1 (assignedLaneOf st c)).set P2
          (lowestFree (((consumeRes st c).set P1 (assignedLaneOf st c)).values)),
        max (consumeNext st c)
          (lowestFree (((consumeRes st c).set P1 (assignedLaneOf st c)).values) + 1)⟩ := by
  have hh1 : ¬ ((consumeRes st c).has P1 = true) := by
    simp [JMap.has, hP1]
  have hsetP2 : ((consumeRes st c).set P1 (assignedLaneOf st c)).lookup P2 = none := by
    rw [JMap.lookup_set, if_neg hP12]
    exact hP2
  have hh2 : ¬ (((consumeRes st c).set P1 (assignedLaneOf st c)).has P2 = true) := by
    simp [JMap.has, hsetP2]
  simp only [consumeRes] at hh1 hh2
  simp only [laneStep, hpar, List.foldl_cons, List.foldl_nil, reserveExtraParent,
    consumeRes, consumeNext, hh1, hh2, Bool.false_eq_true, if_false]

/-- C8: first writer wins.  (1) A pending reservation for a hash other than
the visited commit's survives any step of the pass with its value unchanged,
so later children never overwrite it; (2) consequently, on a duplicate-free
history the lane finally assigned to a shared parent is exactly the lane the
earliest child reserved for it. -/
theorem claim_C8_first_writer_wins :
    (∀ (st : LaneState) (c : GitCommit) (h : String) (v : Nat),
      c.hash ≠ h → st.reservedLanes.lookup h = some v →
      (laneStep st c).reservedLanes.lookup h = some v) ∧
    (∀ (commits pre rest : List GitCommit) (c : GitCommit) (h : String) (v : Nat),
      commits = pre ++ rest → (commits.map GitCommit.hash).Nodup →
      (stateAt commits pre.length).reservedLanes.lookup h = some v →
      c ∈ rest → c.hash = h →
      (calculateLanes commits).lookup h = some v) :=
  ⟨fun _ _ _ _ hne hv => laneStep_reserved_lookup hne hv,
    fun _ _ _ _ _ _ h1 h2 h3 h4 h5 => final_lane_of_reservation h1 h2 h3 h4 h5⟩

/-- Witness for C8: after row 0 of the scenario, `c2` is reserved on lane 0
and that is the lane it finally receives. -/
theorem claim_C8_witness :
    (calculateLanes scenarioCommits).lookup "c2" = some 0 :=
  claim_C8_first_writer_wins.2 scenarioCommits
    [ { hash := "c3", parents := ["c2"] } ]
    [ { hash := "c2", parents := ["c1", "b1"] },
      { hash := "c1", parents := [] },
      { hash := "b1", parents := ["c1"] } ]
    { hash := "c2", parents := ["c1", "b1"] } "c2" 0
    (by decide) (by decide) (by decide) (by decide) (by decide)

/-- C4: a merge commit `M` with parents `[P1, P2]`, neither reserved when `M`
is visited, reserves `M`'s own lane for `P1` and, for `P2`, the lowest lane
free of every active reservation value (which also differs from `M`'s lane),
raising `nextLane` above it; when `P1` and `P2` occur later in a
duplicate-free history those reservations become their final lanes, so `P1`
shares `M`'s lane and `P2`'s lane avoids everything reserved at that
moment. -/
theorem claim_C4_merge_parent_allocation (commits pre post : List GitCommit)
    (M : GitCommit) (P1 P2 : String) (c1 c2 : GitCommit)
    (hcommits : commits = pre ++ M :: post)
    (hpar : M.parents = [P1, P2]) (hP12 : P1 ≠ P2)
    (hres1 : (stateAt commits pre.length).reservedLanes.lookup P1 = none)
    (hres2 : (stateAt commits pre.length).reservedLanes.lookup P2 = none)
    (hnd : (commits.map GitCommit.hash).Nodup)
    (hc1 : c1 ∈ post) (hhc1 : c1.hash = P1)
    (hc2 : c2 ∈ post) (hhc2 : c2.hash = P2) :
    ∃ nl,
      (stateAt commits (pre.length + 1)).reservedLanes.lookup P1 =
        some (assignedLaneOf (stateAt commits pre.length) M) ∧
      (stateAt commits (pre.length + 1)).reservedLanes.lookup P2 = some nl ∧
      nl ∉ (stateAt commits pre.length).reservedLanes.values ∧
      nl ≠ assignedLaneOf (stateAt commits pre.length) M ∧
      (∀ w, w < nl → w ∈ (stateAt commits pre.length).reservedLanes.values ∨
        w = assignedLaneOf (stateAt commits pre.length) M) ∧
      nl + 1 ≤ (stateAt commits (pre.length + 1)).nextLane ∧
      (calculateLanes commits).lookup M.hash =
        some (assignedLaneOf (stateAt commits pre.length) M) ∧
      (calculateLanes commits).lookup P1 =
        some (assignedLaneOf (stateAt commits pre.length) M) ∧
      (calculateLanes commits).lookup P2 = some nl := by
  have hdrop : commits.drop pre.length = M :: post := by
    rw [hcommits]
    exact List.drop_left pre (M :: post)
  obtain ⟨hplen, hpM, _⟩ := drop_head_facts hdrop
  have hr1 : (consumeRes (stateAt commits pre.length) M).lookup P1 = none :=
    consumeRes_lookup_none hres1
  have hr2 : (consumeRes (stateAt commits pre.length) M).lookup P2 = none :=
    consumeRes_lookup_none hres2
  have hsucc : stateAt commits (pre.length + 1) = laneStep (stateAt commits pre.length) M := by
    rw [stateAt_succ hplen, hpM]
  have hstep := laneStep_two_parents (stateAt commits pre.length) M P1 P2 hpar hr1 hr2 hP12
  have hr2app : (consumeRes (stateAt commits pre.length) M).set P1
      (assignedLaneOf (stateAt commits pre.length) M) =
      consumeRes (stateAt commits pre.length) M ++
        [(P1, assignedLaneOf (stateAt commits pre.length) M)] :=
    JMap.set_of_lookup_none _ _ _ hr1
  have hvals_up : ∀ x, x ∈ (stateAt commits pre.length).reservedLanes.values →
      x ∈ ((consumeRes (stateAt commits pre.length) M).set P1
        (assignedLaneOf (stateAt commits pre.length) M)).values := by
    intro x hx
    rw [hr2app, JMap.values_append]
    rcases JMap.mem_values_delete_or (stateAt commits pre.length).reservedLanes M.hash x hx
      with hd | hl
    · by_cases hres : (stateAt commits pre.length).reservedLanes.has M.hash
      · rw [List.mem_append]
        left
        rw [consumeRes, if_pos hres]
        exact hd
      · rw [List.mem_append]
        left
        rw [consumeRes, if_neg hres]
        exact hx
    · have hres : (stateAt commits pre.length).reservedLanes.has M.hash = true := by
        simp [JMap.has, hl]
      have hax : assignedLaneOf (stateAt commits pre.length) M = x := by
        rw [assignedLaneOf, if_pos hres, JMap.getD, hl]
        rfl
      rw [List.mem_append]
      right
      simp [JMap.values, hax]
  have hvals_down : ∀ x, x ∈ ((consumeRes (stateAt commits pre.length) M).set P1
      (assignedLaneOf (stateAt commits pre.length) M)).values →
      x ∈ (stateAt commits pre.length).reservedLanes.values ∨
        x = assignedLaneOf (stateAt commits pre.length) M := by
    intro x hx
    rw [hr2app, JMap.values_append] at hx
    rcases List.mem_append.mp hx with hx | hx
    · left
      by_cases hres : (stateAt commits pre.length).reservedLanes.has M.hash
      · rw [consumeRes, if_pos hres] at hx
        exact ((JMap.delete_sublist _ _).map Prod.snd).mem hx
      · rw [consumeRes, if_neg hres] at hx
        exact hx
    · right
      simpa [JMap.values] using hx
  have ha_mem : assignedLaneOf (stateAt commits pre.length) M ∈
      ((consumeRes (stateAt commits pre.length) M).set P1
        (assignedLaneOf (stateAt commits pre.length) M)).values := by
    rw [hr2app, JMap.values_append, List.mem_append]
    right
    simp [JMap.values]
  refine ⟨lowestFree (((consumeRes (stateAt commits pre.length) M).set P1
    (assignedLaneOf (stateAt commits pre.length) M)).values), ?_, ?_, ?_, ?_, ?_, ?_, ?_, ?_, ?_⟩
  · rw [hsucc, hstep]
    show (((consumeRes (stateAt commits pre.length) M).set P1
      (assignedLaneOf (stateAt commits pre.length) M)).set P2 _).lookup P1 = _
    rw [JMap.lookup_set, if_neg (fun he => hP12 he.symm), JMap.lookup_set, if_pos rfl]
  · rw [hsucc, hstep]
    show (((consumeRes (stateAt commits pre.length) M).set P1
      (assignedLaneOf (stateAt commits pre.length) M)).set P2 _).lookup P2 = _
    rw [JMap.lookup_set, if_pos rfl]
  · intro hmem
    exact lowestFree_not_mem _ (hvals_up _ hmem)
  · intro he
    have hnope := lowestFree_not_mem (((consumeRes (stateAt commits pre.length) M).set P1
      (assignedLaneOf (stateAt commits pre.length) M)).values)
    rw [he] at hnope
    exact hnope ha_mem
  · intro w hw
    exact hvals_down w (lowestFree_min _ w hw)
  · rw [hsucc, hstep]
    show _ + 1 ≤ max (consumeNext (stateAt commits pre.length) M) _
    exact le_max_right _ _
  · have hfin := calculateLanes_lookup_eq_assigned hnd hplen
    rw [hpM] at hfin
    exact hfin
  · refine @final_lane_of_reservation commits (pre ++ [M]) post ?_ hnd P1 _ ?_ c1 hc1 hhc1
    · rw [hcommits]
      simp
    · have hlen1 : (pre ++ [M]).length = pre.length + 1 := by simp
      rw [hlen1, hsucc, hstep]
      show (((consumeRes (stateAt commits pre.length) M).set P1
        (assignedLaneOf (stateAt commits pre.length) M)).set P2 _).lookup P1 = _
      rw [JMap.lookup_set, if_neg (fun he => hP12 he.symm), JMap.lookup_set, if_pos rfl]
  · refine @final_lane_of_reservation commits (pre ++ [M]) post ?_ hnd P2 _ ?_ c2 hc2 hhc2
    · rw [hcommits]
      simp
    · have hlen1 : (pre ++ [M]).length = pre.length + 1 := by simp
      rw [hlen1, hsucc, hstep]
      show (((consumeRes (stateAt commits pre.length) M).set P1
        (assignedLaneOf (stateAt commits pre.length) M)).set P2 _).lookup P2 = _
      rw [JMap.lookup_set, if_pos rfl]

/-- Witness for C4: the scenario's merge `c2` (parents `[c1, b1]`). -/
theorem claim_C4_witness :
    ∃ nl,
      (stateAt scenarioCommits 2).reservedLanes.lookup "c1" =
        some (assignedLaneOf (stateAt scenarioCommits 1)
          { hash := "c2", parents := ["c1", "b1"] }) ∧
      (stateAt scenarioCommits 2).reservedLanes.lookup "b1" = some nl ∧
      nl ∉ (stateAt scenarioCommits 1).reservedLanes.values ∧
      nl ≠ assignedLaneOf (stateAt scenarioCommits 1)
        { hash := "c2", parents := ["c1", "b1"] } ∧
      (∀ w, w < nl → w ∈ (stateAt scenarioCommits 1).reservedLanes.values ∨
        w = assignedLaneOf (stateAt scenarioCommits 1)
          { hash := "c2", parents := ["c1", "b1"] }) ∧
      nl + 1 ≤ (stateAt scenarioCommits 2).nextLane ∧
      (calculateLanes scenarioCommits).lookup "c2" =
        some (assignedLaneOf (stateAt scenarioCommits 1)
          { hash := "c2", parents := ["c1", "b1"] }) ∧
      (calculateLanes scenarioCommits).lookup "c1" =
        some (assignedLaneOf (stateAt scenarioCommits 1)
          { hash := "c2", parents := ["c1", "b1"] }) ∧
      (calculateLanes scenarioCommits).lookup "b1" = some nl :=
  claim_C4_merge_parent_allocation scenarioCommits
    [ { hash := "c3", parents := ["c2"] } ]
    [ { hash := "c1", parents := [] }, { hash := "b1", parents := ["c1"] } ]
    { hash := "c2", parents := ["c1", "b1"] } "c1" "b1"
    { hash := "c1", parents := [] } { hash := "b1", parents := ["c1"] }
    (by decide) (by decide) (by decide) (by decide) (by decide) (by decide)
    (by decide) (by decide) (by decide) (by decide)

end GitPlus
